import Mathlib

/-!
# Synchronization primitives of `multi_thread`

The reentrant reader-writer lock and its guards (`src/shared_mutex.h`), the
blocking queue (`src/safequeue.hpp`), the spin lock and spin mutex
(`src/spinlock.h`) and the synchronized map (`src/unordered_map.hpp`).

## Reentrant reader-writer lock

A shallow embedding of `app::shared_mutex`.  Every public member function runs
with the internal mutex `mtx_` held from its first to its last statement, so
each call is one atomic transition on the five data fields.  A blocking
`lock_shared()` changes nothing before its wait predicate holds, and then
runs `read()` under the same hold of `mtx_`, so its return is one transition
as well.  The only exception is the blocking `lock()`, which increments
`write_cnt_`, then may release `mtx_` while it waits on `cond_w_`; it is
split into `lock_enter` (the increment) and `lock_grant` (the part after the
wait).  Notifications of the condition variables change no data field and
are not modelled.

`size_t` fields are natural numbers with `++` and `--` taken modulo `2 ^ 64`.
Thread identities are natural numbers; the default constructed
`std::thread::id` held by `w_id_` when nobody owns the lock is `none`.
-/

namespace app

/-! ## Data model -/

/-- Identity of a running thread (`std::this_thread::get_id()`). -/
abbrev trd_id := Nat

/-- Number of values of a `size_t`. -/
def SIZE_MOD : Nat := 2 ^ 64

/-- Machine `++x` on a `size_t`. -/
def incr (x : Nat) : Nat := (x + 1) % SIZE_MOD

/-- Machine `--x` on a `size_t`. -/
def decr (x : Nat) : Nat := (x + (SIZE_MOD - 1)) % SIZE_MOD

/-- The type `std::map<trd_id, size_t>`: entries listed in key order. -/
abbrev map_depth := List (trd_id × Nat)

/-- Lookup `m.find(k)`: the mapped depth, `none` for `end()`. -/
def map_find : map_depth → trd_id → Option Nat
  | [], _ => none
  | (k, v) :: m, id => if k = id then some v else map_find m id

/-- Store `v` under key `k`, keeping the key order. -/
def map_put : map_depth → trd_id → Nat → map_depth
  | [], id, v => [(id, v)]
  | (k, w) :: m, id, v =>
    if id < k then (id, v) :: (k, w) :: m
    else if id = k then (id, v) :: m
    else (k, w) :: map_put m id v

/-- Removal `m.erase(it)` of the entry with key `k`. -/
def map_erase (m : map_depth) (id : trd_id) : map_depth :=
  m.filter (fun e => decide (e.1 ≠ id))

/-- Entry count `m.size()`. -/
def map_size (m : map_depth) : Nat := m.length

/-- Key of the first entry, `m.cbegin()->first`. -/
def map_begin_key (m : map_depth) : Option trd_id := m.head?.map Prod.fst

/-- Data fields of `app::shared_mutex`. -/
structure shared_mutex where
  /-- total outstanding shared holds -/
  read_cnt_ : Nat
  /-- outstanding exclusive requests and holds -/
  write_cnt_ : Nat
  /-- recursion depth of the exclusive holder -/
  write_depth_ : Nat
  /-- current writer, `none` for the default `std::thread::id` -/
  w_id_ : Option trd_id
  /-- per-thread shared recursion depth -/
  read_depth_ : map_depth
deriving DecidableEq

/-- The freshly constructed lock: all counters zero, no owner, empty map. -/
def shared_mutex.fresh : shared_mutex :=
  { read_cnt_ := 0, write_cnt_ := 0, write_depth_ := 0, w_id_ := none, read_depth_ := [] }

/-- Result of a release operation. -/
inductive Outcome where
  /-- normal return with the new state -/
  | ok (s : shared_mutex)
  /-- a `utils_assert` failed: diagnostic and `exit(1)`; `s` is the state at that point -/
  | fatal (s : shared_mutex)
  /-- the end iterator of `read_depth_` was dereferenced; `s` is the state at that point -/
  | undefined (s : shared_mutex)
deriving DecidableEq

/-! ## Private helpers of `shared_mutex` -/

/-- Predicate `shared_mutex::readable()` evaluated by thread `id`. -/
def readable (s : shared_mutex) (id : trd_id) : Bool :=
  if s.write_cnt_ = 0 then true
  else if s.w_id_ = some id then true
  else false

/-- Predicate `shared_mutex::writeable()` evaluated by thread `id`. -/
def writeable (s : shared_mutex) (id : trd_id) : Bool :=
  if s.read_cnt_ = 0 ∧ s.write_cnt_ = 1 then true
  else if s.w_id_ = some id then true
  else if map_size s.read_depth_ = 1 ∧ map_begin_key s.read_depth_ = some id then true
  else false

/-- Update `shared_mutex::read()`: `++read_cnt_; ++read_depth_[id]`. -/
def read (s : shared_mutex) (id : trd_id) : shared_mutex :=
  { s with
    read_cnt_ := incr s.read_cnt_
    read_depth_ := map_put s.read_depth_ id (incr ((map_find s.read_depth_ id).getD 0)) }

/-- Update `shared_mutex::write()`: `++write_depth_; w_id_ = id`. -/
def write (s : shared_mutex) (id : trd_id) : shared_mutex :=
  { s with write_depth_ := incr s.write_depth_, w_id_ := some id }

/-! ## Public operations -/

/-- Blocking `lock_shared()`: `some` of the new state when the wait predicate
holds, `none` while the caller stays blocked on `cond_r_`. -/
def lock_shared (s : shared_mutex) (id : trd_id) : Option shared_mutex :=
  if readable s id then some (read s id) else none

/-- Non-blocking `try_lock_shared()`: return value and new state. -/
def try_lock_shared (s : shared_mutex) (id : trd_id) : Bool × shared_mutex :=
  if readable s id then (true, read s id) else (false, s)

/-- Release `unlock_shared()`. -/
def unlock_shared (s : shared_mutex) (id : trd_id) : Outcome :=
  if ¬ (s.read_cnt_ > 0) then .fatal s
  else
    let s1 : shared_mutex := { s with read_cnt_ := decr s.read_cnt_ }
    match map_find s1.read_depth_ id with
    | none =>
      -- `it == read_depth_.end()` makes the assertion pass; `--it->second` follows
      .undefined s1
    | some d =>
      if ¬ (d > 0) then .fatal s1
      else
        let r_depth := decr d
        let s2 : shared_mutex :=
          if r_depth = 0 then { s1 with read_depth_ := map_erase s1.read_depth_ id }
          else { s1 with read_depth_ := map_put s1.read_depth_ id r_depth }
        if s2.write_depth_ > 0 then .ok s2
        else if r_depth = 0 then .ok { s2 with w_id_ := none }
        else .ok s2

/-- First part of blocking `lock()`: `++write_cnt_` on entry. -/
def lock_enter (s : shared_mutex) (_id : trd_id) : shared_mutex :=
  { s with write_cnt_ := incr s.write_cnt_ }

/-- Second part of blocking `lock()`: once `writeable()` holds, `write()`.
`none` while the caller stays blocked on `cond_w_`. -/
def lock_grant (s : shared_mutex) (id : trd_id) : Option shared_mutex :=
  if writeable s id then some (write s id) else none

/-- Blocking `lock()` when it is granted without waiting; `none` when the
caller has to wait after its increment. -/
def lock (s : shared_mutex) (id : trd_id) : Option shared_mutex :=
  lock_grant (lock_enter s id) id

/-- Non-blocking `try_lock()`: return value and new state. -/
def try_lock (s : shared_mutex) (id : trd_id) : Bool × shared_mutex :=
  if writeable s id then (true, write { s with write_cnt_ := incr s.write_cnt_ } id)
  else (false, s)

/-- Release `unlock()`. -/
def unlock (s : shared_mutex) (id : trd_id) : Outcome :=
  if ¬ (s.write_cnt_ > 0) then .fatal s
  else
    let s1 : shared_mutex := { s with write_cnt_ := decr s.write_cnt_ }
    let s2 : shared_mutex := if s1.w_id_ = some id then { s1 with write_depth_ := decr s1.write_depth_ } else s1
    if s1.w_id_ = some id ∧ s2.write_depth_ ≠ 0 then .ok s2
    else if map_find s2.read_depth_ id = none then .ok { s2 with w_id_ := none }
    else .ok s2

/-! ## Threads operating on one lock

The lock together with a record of what each thread has been granted and not
yet released, so that statements about interleavings can speak of "a hold
that was granted".  The record is bookkeeping of the model only; the lock
itself never reads it. -/

/-- One atomic step taken by a thread. -/
inductive Step where
  /-- blocking `lock_shared()` returning (its wait predicate held) -/
  | lock_shared (t : trd_id)
  /-- a call of `try_lock_shared()` -/
  | try_lock_shared (t : trd_id)
  /-- a call of `unlock_shared()` -/
  | unlock_shared (t : trd_id)
  /-- entry of blocking `lock()`: the request is counted in `write_cnt_` -/
  | lock_enter (t : trd_id)
  /-- blocking `lock()` returning (its wait predicate held) -/
  | lock_grant (t : trd_id)
  /-- a call of `try_lock()` -/
  | try_lock (t : trd_id)
  /-- a call of `unlock()` -/
  | unlock (t : trd_id)
deriving DecidableEq

/-- A lock and the holds of its client threads. -/
structure System where
  /-- the lock -/
  mtx : shared_mutex
  /-- one occurrence of `t` per exclusive acquisition granted to `t` and not released -/
  excl : List trd_id
  /-- one occurrence of `t` per shared acquisition granted to `t` and not released -/
  shrd : List trd_id
  /-- threads inside `lock()`, after the increment and before the grant -/
  waiting : List trd_id
deriving DecidableEq

/-- A freshly constructed lock that no thread has touched. -/
def System.fresh : System :=
  { mtx := shared_mutex.fresh, excl := [], shrd := [], waiting := [] }

/-- Effect of one step; `none` when the step cannot happen: the thread is
blocked inside `lock()`, a blocking acquire whose wait predicate is false, a
release of a hold the thread was not granted, or a release that does not
return normally. -/
def step (sys : System) : Step → Option System
  | .lock_shared t =>
    if t ∈ sys.waiting then none
    else (lock_shared sys.mtx t).map fun m => { sys with mtx := m, shrd := t :: sys.shrd }
  | .try_lock_shared t =>
    if t ∈ sys.waiting then none
    else
      let r := try_lock_shared sys.mtx t
      some (if r.1 then { sys with mtx := r.2, shrd := t :: sys.shrd } else { sys with mtx := r.2 })
  | .unlock_shared t =>
    if t ∈ sys.waiting ∨ t ∉ sys.shrd then none
    else
      match unlock_shared sys.mtx t with
      | .ok m => some { sys with mtx := m, shrd := sys.shrd.erase t }
      | _ => none
  | .lock_enter t =>
    if t ∈ sys.waiting then none
    else some { sys with mtx := lock_enter sys.mtx t, waiting := t :: sys.waiting }
  | .lock_grant t =>
    if t ∉ sys.waiting then none
    else (lock_grant sys.mtx t).map fun m =>
      { sys with mtx := m, excl := t :: sys.excl, waiting := sys.waiting.erase t }
  | .try_lock t =>
    if t ∈ sys.waiting then none
    else
      let r := try_lock sys.mtx t
      some (if r.1 then { sys with mtx := r.2, excl := t :: sys.excl } else { sys with mtx := r.2 })
  | .unlock t =>
    if t ∈ sys.waiting ∨ t ∉ sys.excl then none
    else
      match unlock sys.mtx t with
      | .ok m => some { sys with mtx := m, excl := sys.excl.erase t }
      | _ => none

/-- Effect of a sequence of steps, `none` as soon as one cannot happen. -/
def run (sys : System) : List Step → Option System
  | [] => some sys
  | st :: rest => (step sys st).bind fun sys' => run sys' rest

/-- The step is an exclusive acquisition by a thread that holds a shared
acquisition at that moment. -/
def acquires_while_reader (sys : System) : Step → Bool
  | .lock_enter t => decide (t ∈ sys.shrd)
  | .lock_grant t => decide (t ∈ sys.shrd)
  | .try_lock t => decide (t ∈ sys.shrd)
  | _ => false

/-- No step of the sequence is an exclusive acquisition by a current reader. -/
def upgrade_free (sys : System) : List Step → Bool
  | [] => true
  | st :: rest =>
    !acquires_while_reader sys st &&
      match step sys st with
      | none => true
      | some sys' => upgrade_free sys' rest

/-! ## One thread operating alone -/

/-- A call made by the single client thread. -/
inductive Call where
  /-- the call `lock_shared()` -/
  | lock_shared
  /-- the call `lock()` -/
  | lock
  /-- the call `unlock_shared()` -/
  | unlock_shared
  /-- the call `unlock()` -/
  | unlock
deriving DecidableEq

/-- Effect of a call by thread `T`; `none` when an acquire is not granted on
entry or a release does not return normally. -/
def call (s : shared_mutex) (T : trd_id) : Call → Option shared_mutex
  | .lock_shared => lock_shared s T
  | .lock => lock s T
  | .unlock_shared =>
    match unlock_shared s T with
    | .ok s' => some s'
    | _ => none
  | .unlock =>
    match unlock s T with
    | .ok s' => some s'
    | _ => none

/-- Effect of a sequence of calls by thread `T`. -/
def calls (s : shared_mutex) (T : trd_id) : List Call → Option shared_mutex
  | [] => some s
  | c :: cs => (call s T c).bind fun s' => calls s' T cs

/-- Numbers of unreleased (shared, exclusive) acquires after one more call;
`none` when the call is a release without a not-yet-released acquire of its kind. -/
def held_after (h : Nat × Nat) : Call → Option (Nat × Nat)
  | .lock_shared => some (h.1 + 1, h.2)
  | .lock => some (h.1, h.2 + 1)
  | .unlock_shared => if 0 < h.1 then some (h.1 - 1, h.2) else none
  | .unlock => if 0 < h.2 then some (h.1, h.2 - 1) else none

/-- Numbers of unreleased (shared, exclusive) acquires after a sequence of
calls; `none` when some release is not preceded by a matching acquire. -/
def held (h : Nat × Nat) : List Call → Option (Nat × Nat)
  | [] => some h
  | c :: cs => (held_after h c).bind fun h' => held h' cs

/-- State of the lock when thread `T`, operating alone, has `r` unreleased
shared and `w` unreleased exclusive acquires. -/
def single_inv (T : trd_id) (s : shared_mutex) (r w : Nat) : Prop :=
  s.read_cnt_ = r ∧ s.write_cnt_ = w ∧ s.write_depth_ = w ∧
    s.read_depth_ = (if r = 0 then [] else [(T, r)]) ∧
    (0 < w → s.w_id_ = some T) ∧
    (r = 0 → w = 0 → s.w_id_ = none)

/-! ## Blocking queue (`src/safequeue.hpp`)

`safe_queue_base<T, _Container>` runs every member function with `mtx_`
held, so each call is one transition on the container `queue_` and the
counter `size_`.  The template calls `queue_.push`, `queue_.front`,
`queue_.pop` and `queue_.empty`.  Standard containers are modelled by their
contracts: `std::queue<T>` as a sequence in insertion order,
`std::priority_queue<T, std::vector<T>, std::less<T>>` as a bag whose `top()`
is a greatest element and whose `pop()` removes it.  The alias `safe_queue<T>`
names `std::deque<T>` as its container, which has neither a `push` nor a `pop`
member. -/

/-- The container operations `safe_queue_base` uses, on contents kept as a list.
`front` and `pop` are `none` on an empty container, where the standard leaves
the call undefined. -/
structure Container (α : Type) where
  /-- the call `queue_.push(x)` -/
  push : List α → α → List α
  /-- the call `queue_.front()` -/
  front : List α → Option α
  /-- the call `queue_.pop()` -/
  pop : List α → Option (List α)

/-- The adaptor `std::queue<T>` as container of `safe_queue_base`: `push` at the
back, `front` and `pop` at the head. -/
def std_queue (α : Type) : Container α :=
  { push := fun q x => q ++ [x]
    front := fun q => q.head?
    pop := fun q =>
      match q with
      | [] => none
      | _ :: rest => some rest }

/-- What a container type offers under the member names `push`, `front` and
`pop` that `safe_queue_base` calls on `queue_`; `none` where the type has no
member of that name. -/
structure ContainerMembers (α : Type) where
  /-- the member `push`, if there is one -/
  push : Option (List α → α → List α)
  /-- the member `front`, if there is one -/
  front : Option (List α → Option α)
  /-- the member `pop`, if there is one -/
  pop : Option (List α → Option (List α))

/-- The container operations of a type that has all three members; `none` when
one is missing, so that `push` or the pop forms of `safe_queue_base` over that
type cannot be instantiated. -/
def ContainerMembers.container {α : Type} (M : ContainerMembers α) : Option (Container α) :=
  match M.push, M.front, M.pop with
  | some p, some f, some q => some { push := p, front := f, pop := q }
  | _, _, _ => none

/-- The type `std::deque<T>`: it has `front()`; its insertion and removal
members are `push_back`, `push_front`, `pop_back` and `pop_front`, it has no
member `push` and no member `pop`. -/
def std_deque (α : Type) : ContainerMembers α :=
  { push := none
    front := some fun q => q.head?
    pop := none }

/-- The type `std::queue<T>`: it has all three members. -/
def std_queue_members (α : Type) : ContainerMembers α :=
  { push := some (std_queue α).push
    front := some (std_queue α).front
    pop := some (std_queue α).pop }

/-- The alias `safe_queue<T> = safe_queue_base<T, std::deque<T>>`: the container
operations behind its `push` and pop members. -/
def safe_queue (α : Type) : Option (Container α) := (std_deque α).container

/-- A greatest element of a non-empty `std::priority_queue` under `operator<`. -/
def pq_top {α : Type} [LinearOrder α] : List α → Option α
  | [] => none
  | x :: xs => some (xs.foldl max x)

/-- Backing store `app::priority_queue<T>`: `front()` is `top()`, `pop()` removes
the top element. -/
def priority_queue (α : Type) [LinearOrder α] : Container α :=
  { push := fun q x => q ++ [x]
    front := pq_top
    pop := fun q => (pq_top q).map fun m => q.erase m }

/-- Data fields of `safe_queue_base`: the container and the element counter. -/
structure safe_queue_base (α : Type) where
  /-- contents of the container `queue_` -/
  queue_ : List α
  /-- the counter `std::atomic<size_t> size_` -/
  size_ : Nat

/-- Result of a pop operation. -/
inductive Popped (α : Type) where
  /-- an element is handed back (`true` with `val` assigned, or a non-null pointer) -/
  | value (x : α) (s : safe_queue_base α)
  /-- no element is handed back (`false`, or a null pointer) -/
  | absent (s : safe_queue_base α)
  /-- the caller keeps waiting on `cond_` -/
  | waiting
  /-- an empty container was read or popped; `s` is the state at that point -/
  | undefined (s : safe_queue_base α)

/-- Member `push(T t)`: `queue_.push(t); ++size_`. -/
def safe_queue_base.push {α : Type} (C : Container α) (s : safe_queue_base α) (t : α) :
    safe_queue_base α :=
  { queue_ := C.push s.queue_ t, size_ := incr s.size_ }

/-- The common tail of every pop: read `queue_.front()`, `queue_.pop()`, `--size_`. -/
def safe_queue_base.take_front {α : Type} (C : Container α) (s : safe_queue_base α) :
    Popped α :=
  match C.front s.queue_, C.pop s.queue_ with
  | some x, some q => .value x { queue_ := q, size_ := decr s.size_ }
  | _, _ => .undefined s

/-- Member `void wait_and_pop(T& val)`: waits until the container is non-empty. -/
def safe_queue_base.wait_and_pop {α : Type} (C : Container α) (s : safe_queue_base α) :
    Popped α :=
  if s.queue_.isEmpty then .waiting else s.take_front C

/-- Member `bool wait_and_pop(T& val, timer)` at the end of its wait: the
container is non-empty, or the timeout has expired. -/
def safe_queue_base.wait_and_pop_timed {α : Type} (C : Container α) (s : safe_queue_base α) :
    Popped α :=
  if s.queue_.isEmpty then .absent s else s.take_front C

/-- Member `std::shared_ptr<T> wait_and_pop()`: waits until the container is
non-empty. -/
def safe_queue_base.wait_and_pop_ptr {α : Type} (C : Container α) (s : safe_queue_base α) :
    Popped α :=
  if s.queue_.isEmpty then .waiting else s.take_front C

/-- Member `std::shared_ptr<T> wait_and_pop(timer)` at the end of its wait: the
container is read and popped without a test for emptiness. -/
def safe_queue_base.wait_and_pop_ptr_timed {α : Type} (C : Container α)
    (s : safe_queue_base α) : Popped α :=
  s.take_front C

/-- Member `bool try_pop(T& val)`. -/
def safe_queue_base.try_pop {α : Type} (C : Container α) (s : safe_queue_base α) :
    Popped α :=
  if s.queue_.isEmpty then .absent s else s.take_front C

/-- Member `std::shared_ptr<T> try_pop()`. -/
def safe_queue_base.try_pop_ptr {α : Type} (C : Container α) (s : safe_queue_base α) :
    Popped α :=
  if s.queue_.isEmpty then .absent s else s.take_front C

/-- The untimed ways of popping one element. -/
inductive PopForm where
  /-- the form `void wait_and_pop(T&)` -/
  | wait_and_pop
  /-- the form `std::shared_ptr<T> wait_and_pop()` -/
  | wait_and_pop_ptr
  /-- the form `bool try_pop(T&)` -/
  | try_pop
  /-- the form `std::shared_ptr<T> try_pop()` -/
  | try_pop_ptr
deriving DecidableEq

/-- One pop in the given form. -/
def safe_queue_base.pop_as {α : Type} (C : Container α) (s : safe_queue_base α) :
    PopForm → Popped α
  | .wait_and_pop => s.wait_and_pop C
  | .wait_and_pop_ptr => s.wait_and_pop_ptr C
  | .try_pop => s.try_pop C
  | .try_pop_ptr => s.try_pop_ptr C

/-- Push the elements of `xs` in order. -/
def safe_queue_base.push_all {α : Type} (C : Container α) (s : safe_queue_base α) :
    List α → safe_queue_base α
  | [] => s
  | x :: xs => (s.push C x).push_all C xs

/-- Pop once per listed form, collecting the elements handed back; `none` as
soon as a pop hands back no element. -/
def safe_queue_base.pop_all {α : Type} (C : Container α) (s : safe_queue_base α) :
    List PopForm → Option (List α × safe_queue_base α)
  | [] => some ([], s)
  | f :: fs =>
    match s.pop_as C f with
    | .value x s' => (pop_all C s' fs).map fun r => (x :: r.1, r.2)
    | _ => none

/-! ## Spin lock (`src/spinlock.h`)

The flag `flg_` is shared with other threads, which may clear it between two
probes of the caller.  `obs k` is the value that probe number `k` (counted
from 0) of the call finds in `flg_`; each probe is a `test_and_set`, which
returns that value and leaves the flag set. -/

/-- The loop `for (; _try_cnt > 0 && flg_.test_and_set(); --_try_cnt);` started
with the given `_try_cnt`, the number of probes made so far and the current
flag.  Returns the final `_try_cnt`, the total number of probes and the flag. -/
def spin_lock.try_loop (obs : Nat → Bool) : Nat → Nat → Bool → Nat × Nat × Bool
  | 0, probes, flg => (0, probes, flg)
  | cnt + 1, probes, _ =>
    if obs probes then spin_lock.try_loop obs cnt (probes + 1) true
    else (cnt + 1, probes + 1, true)

/-- Member `spin_lock::try_lock()`: `int _try_cnt = 100;` the loop;
`return _try_cnt > 0;`.  Returns the result, the number of probes made and the
flag at return. -/
def spin_lock.try_lock (obs : Nat → Bool) : Bool × Nat × Bool :=
  let r := spin_lock.try_loop obs 100 0 (obs 0)
  (decide (r.1 > 0), r.2.1, r.2.2)

/-! ## Lock guards (`src/shared_mutex.h`)

The guards `unique_wguard` and `unique_rguard`, that is `unique_write_guard`
and `unique_read_guard` over `app::shared_mutex`, used by thread `T`.  Each
member function is given the state of the lock it refers to and reports the
calls it made on that lock. -/

/-- A call made on the underlying lock. -/
inductive LockCall where
  /-- the call `lock()` -/
  | lock
  /-- the call `unlock()` -/
  | unlock
  /-- the call `try_lock()` -/
  | try_lock
  /-- the call `lock_shared()` -/
  | lock_shared
  /-- the call `unlock_shared()` -/
  | unlock_shared
  /-- the call `try_lock_shared()` -/
  | try_lock_shared
deriving DecidableEq

/-- How a member function of a guard ends: with the state of the lock and the
calls made on it up to that point. -/
inductive Ended (ρ : Type) where
  /-- normal return with result `r` -/
  | returned (r : ρ) (s : shared_mutex) (calls : List LockCall)
  /-- a `utils_assert` failed, in the guard or in the lock: `exit(1)` -/
  | fatal (s : shared_mutex) (calls : List LockCall)
  /-- a blocking call on the lock has not returned -/
  | waiting (s : shared_mutex) (calls : List LockCall)
  /-- undefined behaviour was reached -/
  | undefined (s : shared_mutex) (calls : List LockCall)

/-- The calls made on the lock. -/
def Ended.calls {ρ : Type} : Ended ρ → List LockCall
  | .returned _ _ c => c
  | .fatal _ c => c
  | .waiting _ c => c
  | .undefined _ c => c

/-- Result and lock state of a call that returned normally. -/
def Ended.normal {ρ : Type} : Ended ρ → Option (ρ × shared_mutex)
  | .returned r s _ => some (r, s)
  | _ => none

/-- Data field of `unique_write_guard` next to the lock reference. -/
structure unique_write_guard where
  /-- the flag `owns_` -/
  owns_ : Bool
deriving DecidableEq

/-- Member `unique_write_guard::lock()`. -/
def unique_write_guard.lock (g : unique_write_guard) (s : shared_mutex) (T : trd_id) :
    Ended unique_write_guard :=
  if ¬ (!g.owns_) then .fatal s []
  else
    match app.lock s T with
    | none => .waiting (lock_enter s T) [.lock]
    | some s' => .returned { owns_ := true } s' [.lock]

/-- Member `unique_write_guard::unlock()`. -/
def unique_write_guard.unlock (g : unique_write_guard) (s : shared_mutex) (T : trd_id) :
    Ended unique_write_guard :=
  if ¬ g.owns_ then .fatal s []
  else
    match app.unlock s T with
    | .ok s' => .returned { owns_ := false } s' [.unlock]
    | .fatal s' => .fatal s' [.unlock]
    | .undefined s' => .undefined s' [.unlock]

/-- Member `unique_write_guard::try_lock()`: `return owns_ = shared_lock_.try_lock();`. -/
def unique_write_guard.try_lock (g : unique_write_guard) (s : shared_mutex) (T : trd_id) :
    Ended (Bool × unique_write_guard) :=
  if ¬ (!g.owns_) then .fatal s []
  else
    let r := app.try_lock s T
    .returned (r.1, { owns_ := r.1 }) r.2 [.try_lock]

/-- Constructor `unique_write_guard(shared_lock&)`: `owns_(false)`, then `lock()`. -/
def unique_write_guard.ctor (s : shared_mutex) (T : trd_id) : Ended unique_write_guard :=
  unique_write_guard.lock { owns_ := false } s T

/-- Move constructor `unique_write_guard(unique_write_guard&& other)`: the
result is the new guard paired with `other` after the move. -/
def unique_write_guard.move_ctor (other : unique_write_guard) (s : shared_mutex) :
    Ended (unique_write_guard × unique_write_guard) :=
  .returned ({ owns_ := other.owns_ }, { owns_ := false }) s []

/-- Destructor `~unique_write_guard()`. -/
def unique_write_guard.dtor (g : unique_write_guard) (s : shared_mutex) (T : trd_id) :
    Ended Unit :=
  if g.owns_ then
    match app.unlock s T with
    | .ok s' => .returned () s' [.unlock]
    | .fatal s' => .fatal s' [.unlock]
    | .undefined s' => .undefined s' [.unlock]
  else .returned () s []

/-- Largest value of an `int`. -/
def INT_MAX : Int := 2 ^ 31 - 1

/-- Smallest value of an `int`. -/
def INT_MIN : Int := -(2 ^ 31)

/-- Data field of `unique_read_guard` next to the lock reference. -/
structure unique_read_guard where
  /-- the counter `int owns_ref_` -/
  owns_ref_ : Int
deriving DecidableEq

/-- Member `unique_read_guard::lock()`: `lock_shared(); ++owns_ref_;`. -/
def unique_read_guard.lock (g : unique_read_guard) (s : shared_mutex) (T : trd_id) :
    Ended unique_read_guard :=
  match app.lock_shared s T with
  | none => .waiting s [.lock_shared]
  | some s' =>
    if g.owns_ref_ = INT_MAX then .undefined s' [.lock_shared]
    else .returned { owns_ref_ := g.owns_ref_ + 1 } s' [.lock_shared]

/-- Member `unique_read_guard::unlock()`. -/
def unique_read_guard.unlock (g : unique_read_guard) (s : shared_mutex) (T : trd_id) :
    Ended unique_read_guard :=
  if ¬ (g.owns_ref_ > 0) then .fatal s []
  else
    match app.unlock_shared s T with
    | .ok s' => .returned { owns_ref_ := g.owns_ref_ - 1 } s' [.unlock_shared]
    | .fatal s' => .fatal s' [.unlock_shared]
    | .undefined s' => .undefined s' [.unlock_shared]

/-- Member `unique_read_guard::try_lock()`. -/
def unique_read_guard.try_lock (g : unique_read_guard) (s : shared_mutex) (T : trd_id) :
    Ended (Bool × unique_read_guard) :=
  let r := app.try_lock_shared s T
  if r.1 then
    if g.owns_ref_ = INT_MAX then .undefined r.2 [.try_lock_shared]
    else .returned (true, { owns_ref_ := g.owns_ref_ + 1 }) r.2 [.try_lock_shared]
  else .returned (false, g) r.2 [.try_lock_shared]

/-- Constructor `unique_read_guard(shared_lock&)`: `owns_ref_(0)`, then `lock()`. -/
def unique_read_guard.ctor (s : shared_mutex) (T : trd_id) : Ended unique_read_guard :=
  unique_read_guard.lock { owns_ref_ := 0 } s T

/-- The loop `while (owns_ref_-- > 0) shared_lock_.unlock_shared();` of the
destructor, with a bound on the number of tests of its condition. -/
def unique_read_guard.dtor_loop (T : trd_id) :
    Nat → Int → shared_mutex → List LockCall → Ended unique_read_guard
  | 0, _, s, calls => .waiting s calls
  | fuel + 1, n, s, calls =>
    if n > 0 then
      match app.unlock_shared s T with
      | .ok s' => unique_read_guard.dtor_loop T fuel (n - 1) s' (calls ++ [.unlock_shared])
      | .fatal s' => .fatal s' (calls ++ [.unlock_shared])
      | .undefined s' => .undefined s' (calls ++ [.unlock_shared])
    else if n = INT_MIN then .undefined s calls
    else .returned { owns_ref_ := n - 1 } s calls

/-- Destructor `~unique_read_guard()`; the loop condition is tested at most
`owns_ref_ + 1` times. -/
def unique_read_guard.dtor (g : unique_read_guard) (s : shared_mutex) (T : trd_id) :
    Ended unique_read_guard :=
  unique_read_guard.dtor_loop T (g.owns_ref_.toNat + 1) g.owns_ref_ s []

/-- A member function called on a `unique_read_guard` after its construction. -/
inductive GuardOp where
  /-- the call `lock()` -/
  | lock
  /-- the call `try_lock()` -/
  | try_lock
  /-- the call `unlock()` -/
  | unlock
deriving DecidableEq

/-- One call on the guard: `some` of the guard, the lock and whether the call
acquired (`true` for `lock()`, the return value for `try_lock()`, `false` for
`unlock()`), `none` when the call does not return normally. -/
def unique_read_guard.apply (T : trd_id) (g : unique_read_guard) (s : shared_mutex) :
    GuardOp → Option (unique_read_guard × shared_mutex × Bool)
  | .lock => (unique_read_guard.lock g s T).normal.map fun r => (r.1, r.2, true)
  | .try_lock => (unique_read_guard.try_lock g s T).normal.map fun r => (r.1.2, r.2, r.1.1)
  | .unlock => (unique_read_guard.unlock g s T).normal.map fun r => (r.1, r.2, false)

/-- A sequence of calls on the guard, with the list of acquisitions flags. -/
def unique_read_guard.run (T : trd_id) (g : unique_read_guard) (s : shared_mutex) :
    List GuardOp → Option (unique_read_guard × shared_mutex × List Bool)
  | [] => some (g, s, [])
  | op :: ops =>
    match unique_read_guard.apply T g s op with
    | none => none
    | some (g', s', b) =>
      (unique_read_guard.run T g' s' ops).map fun r => (r.1, r.2.1, b :: r.2.2)

/-- Number of `true` entries: the acquisitions made by the calls of a run. -/
def acquired (res : List Bool) : Nat := res.count true

/-- Number of `unlock()` calls among the operations. -/
def released (ops : List GuardOp) : Nat := ops.count GuardOp.unlock

/-- State of a `unique_read_guard` of thread `T` and of its lock when the guard
holds `k` shared acquisitions: `c0` and `e0` are `read_cnt_` and the depth
entry of `T` (0 when absent) from before the guard was constructed. -/
def guard_inv (T : trd_id) (c0 e0 : Nat) (g : unique_read_guard) (s : shared_mutex)
    (k : Nat) : Prop :=
  g.owns_ref_ = (k : Int) ∧ s.read_cnt_ = c0 + k ∧
    map_find s.read_depth_ T = (if e0 + k = 0 then none else some (e0 + k))

/-- A set `w_id_` at `write_depth_ == 0` names a thread with a `read_depth_` entry. -/
def owner_ok (s : shared_mutex) : Prop :=
  ∀ X : trd_id, s.w_id_ = some X → s.write_depth_ = 0 →
    (map_find s.read_depth_ X).isSome = true

/-- Effect of one step on the lock alone, whoever takes it and whatever it
holds; `none` when a blocking acquire finds its wait predicate false or a
release does not return normally. -/
def apply_step (s : shared_mutex) : Step → Option shared_mutex
  | .lock_shared t => lock_shared s t
  | .try_lock_shared t => some (try_lock_shared s t).2
  | .unlock_shared t =>
    match unlock_shared s t with
    | .ok s' => some s'
    | _ => none
  | .lock_enter t => some (lock_enter s t)
  | .lock_grant t => lock_grant s t
  | .try_lock t => some (try_lock s t).2
  | .unlock t =>
    match unlock s t with
    | .ok s' => some s'
    | _ => none

/-- Effect of a sequence of steps on the lock alone. -/
def apply_steps (s : shared_mutex) : List Step → Option shared_mutex
  | [] => some s
  | st :: rest => (apply_step s st).bind fun s' => apply_steps s' rest

/-- Sum of all depths stored in the map. -/
def depth_sum (m : map_depth) : Nat := (m.map Prod.snd).sum

/-- The keys of the map are strictly increasing. -/
def map_sorted (m : map_depth) : Prop := m.Pairwise fun a b => a.1 < b.1

/-- Reader bookkeeping of the lock: keys in order, every stored depth
positive, and `read_cnt_` the sum of the stored depths. -/
def reader_inv (s : shared_mutex) : Prop :=
  map_sorted s.read_depth_ ∧ (∀ e ∈ s.read_depth_, 0 < e.2) ∧
    s.read_cnt_ = depth_sum s.read_depth_

/-! ## Blocking queue: construction and counter queries -/

/-- Constructor `safe_queue_base() = default`: the container starts empty.  The
member `std::atomic<size_t> size_` has no initializer, so a default-initialized
queue starts with whatever value `junk` its storage holds; a value-initialized
or static one starts with 0. -/
def safe_queue_base.ctor (α : Type) (junk : Nat) : safe_queue_base α :=
  { queue_ := [], size_ := junk }

/-- Member `size()`: `return size_;`. -/
def safe_queue_base.size {α : Type} (s : safe_queue_base α) : Nat := s.size_

/-- Member `empty()`: `return size_ != 0;`. -/
def safe_queue_base.empty {α : Type} (s : safe_queue_base α) : Bool := decide (s.size_ ≠ 0)

/-- A call on the queue that keeps the counter in step with the container. -/
inductive QueueOp (α : Type) where
  /-- the call `push(x)` -/
  | push (x : α)
  /-- the call `bool try_pop(T&)` -/
  | try_pop
  /-- the call `std::shared_ptr<T> try_pop()` -/
  | try_pop_ptr
  /-- the call `void wait_and_pop(T&)` -/
  | wait_and_pop
  /-- the call `std::shared_ptr<T> wait_and_pop()` -/
  | wait_and_pop_ptr
  /-- the call `bool wait_and_pop(T&, timer)` -/
  | wait_and_pop_timed

/-- State after a pop that returned; `none` when it keeps waiting or is undefined. -/
def Popped.state {α : Type} : Popped α → Option (safe_queue_base α)
  | .value _ s => some s
  | .absent s => some s
  | .waiting => none
  | .undefined _ => none

/-- Effect of one call; `none` when the call does not return. -/
def safe_queue_base.apply {α : Type} (C : Container α) (s : safe_queue_base α) :
    QueueOp α → Option (safe_queue_base α)
  | .push x => some (s.push C x)
  | .try_pop => (s.try_pop C).state
  | .try_pop_ptr => (s.try_pop_ptr C).state
  | .wait_and_pop => (s.wait_and_pop C).state
  | .wait_and_pop_ptr => (s.wait_and_pop_ptr C).state
  | .wait_and_pop_timed => (s.wait_and_pop_timed C).state

/-- Effect of a sequence of calls. -/
def safe_queue_base.run {α : Type} (C : Container α) (s : safe_queue_base α) :
    List (QueueOp α) → Option (safe_queue_base α)
  | [] => some s
  | op :: ops => (s.apply C op).bind fun s' => safe_queue_base.run C s' ops

/-! ## Spin mutex (`src/spinlock.h`) -/

/-- Update of `millis` in the `for` header of `spin_mutex::lock`:
`millis = (millis < 100 ? millis << 2 : millis)`. -/
def spin_mutex.next_millis (millis : Nat) : Nat :=
  if millis < 100 then millis <<< 2 else millis

/-- The outer loop of `spin_mutex::lock()` followed for `rounds` iterations,
started with the given `millis`, the number of probes made so far and the
timed waits made so far.  Each iteration runs the spin phase (the same loop as
in `spin_lock::try_lock`, with `_try_cnt = try_cnt_`); if that acquired the
flag the call returns, otherwise it waits `millis` milliseconds on `cond_`.
Returns whether the lock was acquired and the durations of the timed waits. -/
def spin_mutex.lock_loop (try_cnt_ : Nat) (obs : Nat → Bool) :
    Nat → Nat → Nat → List Nat → Bool × List Nat
  | 0, _, _, waits => (false, waits)
  | rounds + 1, millis, probes, waits =>
    let r := spin_lock.try_loop obs try_cnt_ probes true
    if r.1 > 0 then (true, waits)
    else
      spin_mutex.lock_loop try_cnt_ obs rounds (spin_mutex.next_millis millis) r.2.1
        (waits ++ [millis])

/-- Member `spin_mutex::lock()`, followed for `rounds` iterations of
`for (int millis = 5;; ...)`. -/
def spin_mutex.lock (try_cnt_ : Nat) (obs : Nat → Bool) (rounds : Nat) : Bool × List Nat :=
  spin_mutex.lock_loop try_cnt_ obs rounds 5 0 []

/-! ## Synchronized map (`src/unordered_map.hpp`)

Every member function holds the recursive mutex `mtx_` for its whole body and
forwards to `std::unordered_map`, modelled by its contract as a list with at
most one entry per key. -/

/-- Data field `map_` of `app::unordered_map`. -/
structure unordered_map (K V : Type) where
  /-- contents of `map_` -/
  map_ : List (K × V)

/-- Lookup `map_.find(key)`: the mapped value, `none` for `end()`. -/
def unordered_map.lookup {K V : Type} [DecidableEq K] (m : unordered_map K V) (key : K) :
    Option V :=
  (m.map_.find? fun e => decide (e.1 = key)).map Prod.snd

/-- Insertion `map_.insert(value_type(key, value))` of the standard container:
when the key is already present nothing is inserted and the mapped value stays. -/
def unordered_map.insert {K V : Type} [DecidableEq K] (m : unordered_map K V) (key : K)
    (value : V) : unordered_map K V :=
  match m.lookup key with
  | some _ => m
  | none => { map_ := (key, value) :: m.map_ }

/-- Member `std::shared_ptr<mapped_type> replace(key, value)`: the returned
pointer (`none` when null) and the new contents. -/
def unordered_map.replace {K V : Type} [DecidableEq K] (m : unordered_map K V) (key : K)
    (value : V) : Option V × unordered_map K V :=
  match m.lookup key with
  | some old => (some old, m.insert key value)
  | none => (none, m)

/-- Member `bool replace(key, value, newvalue)`: the return value and the new
contents. -/
def unordered_map.replace_expected {K V : Type} [DecidableEq K] [DecidableEq V]
    (m : unordered_map K V) (key : K) (value newvalue : V) : Bool × unordered_map K V :=
  match m.lookup key with
  | some cur => if cur = value then (true, m.insert key newvalue) else (false, m)
  | none => (false, m)

/-! ## Map and counter lemmas -/

theorem map_find_put_self (m : map_depth) (id : trd_id) (v : Nat) :
    map_find (map_put m id v) id = some v := by
  induction m with
  | nil => simp [map_put, map_find]
  | cons e m ih =>
    obtain ⟨k, w⟩ := e
    unfold map_put
    split_ifs with h1 h2
    · simp [map_find]
    · simp [map_find]
    · have : k ≠ id := fun h => h2 h.symm
      simp [map_find, this, ih]

theorem map_find_put_ne (m : map_depth) (id u : trd_id) (v : Nat) (h : u ≠ id) :
    map_find (map_put m id v) u = map_find m u := by
  induction m with
  | nil => simp [map_put, map_find, Ne.symm h]
  | cons e m ih =>
    obtain ⟨k, w⟩ := e
    unfold map_put
    split_ifs with h1 h2
    · simp [map_find, Ne.symm h]
    · subst h2
      simp [map_find, Ne.symm h]
    · simp [map_find, ih]

theorem incr_zero : incr 0 = 1 := by decide

theorem incr_one : incr 1 = 2 := by decide

theorem decr_one : decr 1 = 0 := by decide

theorem decr_two : decr 2 = 1 := by decide

theorem incr_of_lt (x : Nat) (h : x + 1 < 2 ^ 64) : incr x = x + 1 := by
  unfold incr SIZE_MOD
  exact Nat.mod_eq_of_lt h

theorem decr_of_pos (x : Nat) (h0 : 0 < x) (h : x < 2 ^ 64) : decr x = x - 1 := by
  unfold decr SIZE_MOD
  omega

/-! ## Claims about single operations -/

/-- C3 (fails on the code): after thread `T1` alone has taken the exclusive lock
on a fresh `shared_mutex` with `lock()`, a `try_lock()` by any thread `T2`
returns `true` and changes `write_cnt_`, `write_depth_` and `w_id_`, because
`writeable()` is tested before the caller is counted and finds
`read_cnt_ == 0 && write_cnt_ == 1`. -/
theorem C3_try_lock_succeeds_on_held_lock (T1 T2 : trd_id) :
    lock shared_mutex.fresh T1
        = some { read_cnt_ := 0, write_cnt_ := 1, write_depth_ := 1, w_id_ := some T1,
                 read_depth_ := [] } ∧
      try_lock { read_cnt_ := 0, write_cnt_ := 1, write_depth_ := 1, w_id_ := some T1,
                 read_depth_ := [] } T2
        = (true, { read_cnt_ := 0, write_cnt_ := 2, write_depth_ := 2, w_id_ := some T2,
                   read_depth_ := [] }) := by
  constructor
  · simp [lock, lock_grant, lock_enter, writeable, write, shared_mutex.fresh, incr, SIZE_MOD]
  · simp [try_lock, writeable, write, incr, SIZE_MOD]

/-- C4 (fails on the code): `try_lock()` does not agree with an immediately
granted `lock()`.  On the fresh lock `lock()` by `t` is granted at once while
`try_lock()` by `t` returns `false`; on the lock held once by thread 1,
`lock()` by thread 2 has to wait while `try_lock()` by thread 2 returns `true`. -/
theorem C4_try_lock_disagrees_with_lock :
    (∀ t : trd_id,
        try_lock shared_mutex.fresh t = (false, shared_mutex.fresh) ∧
        writeable (lock_enter shared_mutex.fresh t) t = true ∧
        lock shared_mutex.fresh t
          = some { read_cnt_ := 0, write_cnt_ := 1, write_depth_ := 1, w_id_ := some t,
                   read_depth_ := [] }) ∧
      lock { read_cnt_ := 0, write_cnt_ := 1, write_depth_ := 1, w_id_ := some 1,
             read_depth_ := [] } 2 = none ∧
      (try_lock { read_cnt_ := 0, write_cnt_ := 1, write_depth_ := 1, w_id_ := some 1,
                  read_depth_ := [] } 2).1 = true := by
  refine ⟨fun t => ⟨?_, ?_, ?_⟩, by decide, by decide⟩
  · simp [try_lock, writeable, shared_mutex.fresh, map_size, map_begin_key]
  · simp [lock_enter, writeable, shared_mutex.fresh, incr, SIZE_MOD]
  · simp [lock, lock_grant, lock_enter, writeable, write, shared_mutex.fresh, incr, SIZE_MOD]

/-- C5: in every state whose `read_depth_` has exactly one entry, belonging to
thread `A`, a `lock()` by `A` is granted without waiting (`writeable()` holds
right after the `write_cnt_` increment); afterwards `write_cnt_` and
`write_depth_` are each one larger (in `size_t` arithmetic, so exactly one
larger below the maximum), `w_id_` is `A`, and `read_cnt_`, `read_depth_` and
with it the entry of `A` are unchanged. -/
theorem C5_upgrade_granted_immediately (s : shared_mutex) (A : trd_id) (n : Nat)
    (h : s.read_depth_ = [(A, n)]) :
    writeable (lock_enter s A) A = true ∧
      ∃ s', lock s A = some s' ∧
        s'.write_cnt_ = (s.write_cnt_ + 1) % 2 ^ 64 ∧
        s'.write_depth_ = (s.write_depth_ + 1) % 2 ^ 64 ∧
        (s.write_cnt_ + 1 < 2 ^ 64 → s'.write_cnt_ = s.write_cnt_ + 1) ∧
        (s.write_depth_ + 1 < 2 ^ 64 → s'.write_depth_ = s.write_depth_ + 1) ∧
        s'.w_id_ = some A ∧
        s'.read_cnt_ = s.read_cnt_ ∧
        s'.read_depth_ = s.read_depth_ ∧
        map_find s'.read_depth_ A = some n := by
  have hw : writeable (lock_enter s A) A = true := by
    simp [writeable, lock_enter, h, map_size, map_begin_key]
  refine ⟨hw, write (lock_enter s A) A, ?_, rfl, rfl, ?_, ?_, rfl, rfl, rfl, ?_⟩
  · simp [lock, lock_grant, hw]
  · intro hlt
    exact incr_of_lt _ hlt
  · intro hlt
    exact incr_of_lt _ hlt
  · simp [write, lock_enter, h, map_find]

/-- Witness for C5: thread 7 is the only reader of an otherwise idle lock. -/
theorem C5_upgrade_granted_immediately_witness :
    writeable (lock_enter { read_cnt_ := 1, write_cnt_ := 0, write_depth_ := 0, w_id_ := none,
                            read_depth_ := [(7, 1)] } 7) 7 = true ∧
      ∃ s', lock { read_cnt_ := 1, write_cnt_ := 0, write_depth_ := 0, w_id_ := none,
                   read_depth_ := [(7, 1)] } 7 = some s' ∧
        s'.write_cnt_ = (0 + 1) % 2 ^ 64 ∧
        s'.write_depth_ = (0 + 1) % 2 ^ 64 ∧
        (0 + 1 < 2 ^ 64 → s'.write_cnt_ = 0 + 1) ∧
        (0 + 1 < 2 ^ 64 → s'.write_depth_ = 0 + 1) ∧
        s'.w_id_ = some 7 ∧
        s'.read_cnt_ = 1 ∧
        s'.read_depth_ = [(7, 1)] ∧
        map_find s'.read_depth_ 7 = some 1 :=
  C5_upgrade_granted_immediately
    { read_cnt_ := 1, write_cnt_ := 0, write_depth_ := 0, w_id_ := none, read_depth_ := [(7, 1)] }
    7 1 rfl

/-- C8: `try_lock_shared()` by `t` returns `true` exactly when
`write_cnt_ == 0` or `w_id_ == t`, which is also exactly when blocking
`lock_shared()` proceeds, and both then produce the same state.  On `true`,
`read_cnt_` and the entry of `t` are each one larger in `size_t` arithmetic
(exactly one larger below the maximum; the entry is created at 1 when absent),
`write_cnt_`, `write_depth_`, `w_id_` and the entry of every other thread are
unchanged.  On `false` the state is unchanged. -/
theorem C8_try_lock_shared (s : shared_mutex) (t : trd_id) :
    ((try_lock_shared s t).1 = true ↔ (s.write_cnt_ = 0 ∨ s.w_id_ = some t)) ∧
    ((lock_shared s t).isSome = true ↔ (s.write_cnt_ = 0 ∨ s.w_id_ = some t)) ∧
    ((try_lock_shared s t).1 = true →
      lock_shared s t = some (try_lock_shared s t).2 ∧
      (try_lock_shared s t).2.read_cnt_ = (s.read_cnt_ + 1) % 2 ^ 64 ∧
      (s.read_cnt_ + 1 < 2 ^ 64 → (try_lock_shared s t).2.read_cnt_ = s.read_cnt_ + 1) ∧
      map_find (try_lock_shared s t).2.read_depth_ t
        = some (((map_find s.read_depth_ t).getD 0 + 1) % 2 ^ 64) ∧
      (map_find s.read_depth_ t = none →
        map_find (try_lock_shared s t).2.read_depth_ t = some 1) ∧
      (∀ d, map_find s.read_depth_ t = some d → d + 1 < 2 ^ 64 →
        map_find (try_lock_shared s t).2.read_depth_ t = some (d + 1)) ∧
      (try_lock_shared s t).2.write_cnt_ = s.write_cnt_ ∧
      (try_lock_shared s t).2.write_depth_ = s.write_depth_ ∧
      (try_lock_shared s t).2.w_id_ = s.w_id_ ∧
      ∀ u, u ≠ t → map_find (try_lock_shared s t).2.read_depth_ u = map_find s.read_depth_ u) ∧
    ((try_lock_shared s t).1 = false → (try_lock_shared s t).2 = s) := by
  have hr : readable s t = true ↔ (s.write_cnt_ = 0 ∨ s.w_id_ = some t) := by
    unfold readable
    by_cases h1 : s.write_cnt_ = 0 <;> by_cases h2 : s.w_id_ = some t <;> simp [h1, h2]
  by_cases hb : readable s t = true
  · have hp := hr.mp hb
    have e1 : try_lock_shared s t = (true, read s t) := by simp [try_lock_shared, hb]
    have e2 : lock_shared s t = some (read s t) := by simp [lock_shared, hb]
    rw [e1, e2]
    refine ⟨⟨fun _ => hp, fun _ => rfl⟩, ⟨fun _ => hp, fun _ => rfl⟩,
      fun _ => ⟨rfl, rfl, ?_, ?_, ?_, ?_, rfl, rfl, rfl, ?_⟩, ?_⟩
    · intro hlt
      exact incr_of_lt _ hlt
    · simp [read, map_find_put_self, incr, SIZE_MOD]
    · intro hn
      simp [read, map_find_put_self, incr, SIZE_MOD, hn]
    · intro d hd hlt
      simp [read, map_find_put_self, hd, incr_of_lt _ hlt]
    · intro u hu
      simp [read, map_find_put_ne _ _ _ _ hu]
    · intro hf
      exact absurd hf (by simp)
  · have hp : ¬ (s.write_cnt_ = 0 ∨ s.w_id_ = some t) := fun h => hb (hr.mpr h)
    have hb' : readable s t = false := by simpa using hb
    have e1 : try_lock_shared s t = (false, s) := by simp [try_lock_shared, hb']
    have e2 : lock_shared s t = none := by simp [lock_shared, hb']
    rw [e1, e2]
    refine ⟨⟨fun h => absurd h (by simp), fun h => absurd h hp⟩,
      ⟨fun h => absurd h (by simp), fun h => absurd h hp⟩, fun h => absurd h (by simp), fun _ => rfl⟩

/-- C9 (fails on the code): thread 1 holds one shared acquisition, thread 2
holds none.  `unlock_shared()` by thread 2 passes `utils_assert(read_cnt_ > 0)`,
decrements `read_cnt_` to 0, passes the second assertion because
`it == read_depth_.end()`, and then decrements through the end iterator: no
fatal assertion fires and the state has been modified. -/
theorem C9_unlock_shared_without_entry_not_fatal :
    lock_shared shared_mutex.fresh 1
        = some { read_cnt_ := 1, write_cnt_ := 0, write_depth_ := 0, w_id_ := none,
                 read_depth_ := [(1, 1)] } ∧
      map_find [(1, 1)] 2 = none ∧
      unlock_shared { read_cnt_ := 1, write_cnt_ := 0, write_depth_ := 0, w_id_ := none,
                      read_depth_ := [(1, 1)] } 2
        = Outcome.undefined { read_cnt_ := 0, write_cnt_ := 0, write_depth_ := 0, w_id_ := none,
                              read_depth_ := [(1, 1)] } := by
  decide

/-- C10 (counterexample): thread 1 holds the exclusive lock and thread 2 has no
exclusive acquisition; `unlock()` by thread 2 is not fatal: it returns
normally with `write_cnt_` decremented to 0 and `w_id_` cleared. -/
theorem C10_unlock_by_non_holder_not_fatal :
    lock shared_mutex.fresh 1
        = some { read_cnt_ := 0, write_cnt_ := 1, write_depth_ := 1, w_id_ := some 1,
                 read_depth_ := [] } ∧
      unlock { read_cnt_ := 0, write_cnt_ := 1, write_depth_ := 1, w_id_ := some 1,
               read_depth_ := [] } 2
        = Outcome.ok { read_cnt_ := 0, write_cnt_ := 0, write_depth_ := 1, w_id_ := none,
                       read_depth_ := [] } ∧
      unlock { read_cnt_ := 0, write_cnt_ := 1, write_depth_ := 1, w_id_ := some 1,
               read_depth_ := [] } 2
        ≠ Outcome.fatal { read_cnt_ := 0, write_cnt_ := 1, write_depth_ := 1, w_id_ := some 1,
                          read_depth_ := [] } := by
  decide

/-- C10 (amended): `unlock()` by any thread ends in the fatal-assertion path
exactly when `write_cnt_ == 0`, and then the lock state is unmodified; when
`write_cnt_ > 0` the call returns normally, whoever the caller is. -/
theorem C10_unlock_fatal_iff_write_cnt_zero (s : shared_mutex) (t : trd_id) :
    (s.write_cnt_ = 0 → unlock s t = Outcome.fatal s) ∧
    (∀ s', unlock s t = Outcome.fatal s' → s.write_cnt_ = 0 ∧ s' = s) ∧
    (0 < s.write_cnt_ → ∃ s', unlock s t = Outcome.ok s') := by
  have hok : 0 < s.write_cnt_ → ∃ s', unlock s t = Outcome.ok s' := by
    intro h
    unfold unlock
    have hn : ¬ ¬ (s.write_cnt_ > 0) := not_not.mpr h
    simp only [hn, if_false]
    split_ifs <;> exact ⟨_, rfl⟩
  refine ⟨?_, ?_, hok⟩
  · intro h
    simp [unlock, h]
  · intro s' h
    by_cases hc : 0 < s.write_cnt_
    · obtain ⟨s'', hs''⟩ := hok hc
      rw [hs''] at h
      cases h
    · have h0 : s.write_cnt_ = 0 := by omega
      simp [unlock, h0] at h
      exact ⟨h0, h.symm⟩

/-! ## Claims about interleavings -/

/-- C1 (fails on the code): two distinct threads are granted the exclusive lock
at the same time.  Thread 1 takes it with `lock()` on the fresh lock; then
`try_lock()` by thread 2 returns `true`, since `writeable()` is evaluated before
the increment of `write_cnt_` and sees `read_cnt_ == 0 && write_cnt_ == 1`.
The second run uses blocking `lock()` only: thread 1 keeps a stale `w_id_`
after releasing an exclusive hold while it is a reader, re-acquires beside
reader 2, drops its shared hold, and thread 2 is then granted as sole reader. -/
theorem C1_two_threads_granted_exclusive :
    run System.fresh [.lock_enter 1, .lock_grant 1, .try_lock 2]
        = some { mtx := { read_cnt_ := 0, write_cnt_ := 2, write_depth_ := 2, w_id_ := some 2,
                          read_depth_ := [] },
                 excl := [2, 1], shrd := [], waiting := [] } ∧
      run System.fresh [.lock_enter 1, .lock_grant 1, .lock_shared 1, .unlock 1, .lock_shared 2,
          .lock_enter 1, .lock_grant 1, .unlock_shared 1, .lock_enter 2, .lock_grant 2]
        = some { mtx := { read_cnt_ := 1, write_cnt_ := 2, write_depth_ := 2, w_id_ := some 2,
                          read_depth_ := [(2, 1)] },
                 excl := [2, 1], shrd := [2], waiting := [] } := by
  decide

/-- C2 (fails on the code): no thread acquires exclusive while it is a reader,
every thread releases only its own holds, and still thread 1 is granted the
exclusive lock by `lock()` while thread 3 holds one unreleased shared
acquisition.  The `try_lock()` of thread 2 succeeds beside holder 1 and leaves
`write_depth_` inflated, so the later `unlock()` of thread 1 returns early
with `w_id_` still naming thread 1, which makes `writeable()` true for it. -/
theorem C2_writer_granted_beside_reader :
    upgrade_free System.fresh [.lock_enter 1, .lock_grant 1, .try_lock 2, .unlock 1, .unlock 2,
        .lock_enter 1, .lock_grant 1, .unlock 1, .lock_shared 3, .lock_enter 1, .lock_grant 1]
        = true ∧
      run System.fresh [.lock_enter 1, .lock_grant 1, .try_lock 2, .unlock 1, .unlock 2,
          .lock_enter 1, .lock_grant 1, .unlock 1, .lock_shared 3, .lock_enter 1]
        = some { mtx := { read_cnt_ := 1, write_cnt_ := 1, write_depth_ := 2, w_id_ := some 1,
                          read_depth_ := [(3, 1)] },
                 excl := [], shrd := [3], waiting := [1] } ∧
      step { mtx := { read_cnt_ := 1, write_cnt_ := 1, write_depth_ := 2, w_id_ := some 1,
                      read_depth_ := [(3, 1)] },
             excl := [], shrd := [3], waiting := [1] } (.lock_grant 1)
        = some { mtx := { read_cnt_ := 1, write_cnt_ := 1, write_depth_ := 3, w_id_ := some 1,
                          read_depth_ := [(3, 1)] },
                 excl := [1], shrd := [3], waiting := [] } := by
  decide

/-- C6: from a fresh lock let `A` do `lock_shared()` and then `lock()`, and let a
different thread `B` enter `lock()`.  `writeable()` is false for `B` then, it
is still false after `A` has performed either one of `unlock()` and
`unlock_shared()`, and it is true after `A` has performed both, in either
order. -/
theorem C6_second_writer_waits_for_both_releases (A B : trd_id) (h : A ≠ B) :
    ∃ s0 : System,
      run System.fresh [.lock_shared A, .lock_enter A, .lock_grant A, .lock_enter B] = some s0 ∧
      writeable s0.mtx B = false ∧
      (∃ s1 s2 : System,
        step s0 (.unlock A) = some s1 ∧ writeable s1.mtx B = false ∧
        step s1 (.unlock_shared A) = some s2 ∧ writeable s2.mtx B = true) ∧
      (∃ s1 s2 : System,
        step s0 (.unlock_shared A) = some s1 ∧ writeable s1.mtx B = false ∧
        step s1 (.unlock A) = some s2 ∧ writeable s2.mtx B = true) := by
  have hBA : B ≠ A := fun e => h e.symm
  refine ⟨{ mtx := ⟨1, 2, 1, some A, [(A, 1)]⟩, excl := [A], shrd := [A], waiting := [B] },
    ?_, ?_, ?_, ?_⟩
  · simp [run, step, System.fresh, shared_mutex.fresh, lock_shared, readable, read, lock_enter,
      lock_grant, writeable, write, map_put, map_find, map_size, map_begin_key, incr_zero, incr_one]
  · simp [writeable, map_size, map_begin_key, h, hBA]
  · refine ⟨{ mtx := ⟨1, 1, 0, some A, [(A, 1)]⟩, excl := [], shrd := [A], waiting := [B] },
      { mtx := ⟨0, 1, 0, none, []⟩, excl := [], shrd := [], waiting := [B] }, ?_, ?_, ?_, ?_⟩
    · simp [step, unlock, map_find, decr_one, decr_two, h]
    · simp [writeable, map_size, map_begin_key, h, hBA]
    · simp [step, unlock_shared, map_find, map_erase, decr_one, h]
    · simp [writeable]
  · refine ⟨{ mtx := ⟨0, 2, 1, some A, []⟩, excl := [A], shrd := [], waiting := [B] },
      { mtx := ⟨0, 1, 0, none, []⟩, excl := [], shrd := [], waiting := [B] }, ?_, ?_, ?_, ?_⟩
    · simp [step, unlock_shared, map_find, map_erase, decr_one, h]
    · simp [writeable, map_size, map_begin_key, h, hBA]
    · simp [step, unlock, map_find, decr_one, decr_two, h]
    · simp [writeable]

/-- Witness for C6 with threads 1 and 2. -/
theorem C6_second_writer_waits_for_both_releases_witness :
    ∃ s0 : System,
      run System.fresh [.lock_shared 1, .lock_enter 1, .lock_grant 1, .lock_enter 2] = some s0 ∧
      writeable s0.mtx 2 = false ∧
      (∃ s1 s2 : System,
        step s0 (.unlock 1) = some s1 ∧ writeable s1.mtx 2 = false ∧
        step s1 (.unlock_shared 1) = some s2 ∧ writeable s2.mtx 2 = true) ∧
      (∃ s1 s2 : System,
        step s0 (.unlock_shared 1) = some s1 ∧ writeable s1.mtx 2 = false ∧
        step s1 (.unlock 1) = some s2 ∧ writeable s2.mtx 2 = true) :=
  C6_second_writer_waits_for_both_releases 1 2 (by decide)

/-! ## One thread alone: reentrancy -/

theorem held_take (ops : List Call) :
    ∀ (h : Nat × Nat) (n : Nat), (held h ops).isSome = true →
      (held h (ops.take n)).isSome = true := by
  induction ops with
  | nil => intro h n hs; simpa using hs
  | cons c cs ih =>
    intro h n hs
    cases n with
    | zero => simp [held]
    | succ n =>
      simp only [List.take_succ_cons, held] at hs ⊢
      cases hc : held_after h c with
      | none => simp [hc] at hs
      | some h' =>
        simp only [hc, Option.some_bind] at hs ⊢
        exact ih h' n hs

theorem call_single_inv (T : trd_id) (s : shared_mutex) (r w r' w' : Nat) (c : Call)
    (hinv : single_inv T s r w) (hr : r + 1 < 2 ^ 64) (hw : w + 1 < 2 ^ 64)
    (hc : held_after (r, w) c = some (r', w')) :
    ∃ s', call s T c = some s' ∧ single_inv T s' r' w' := by
  obtain ⟨rc, wd, wd, wid, rd⟩ := s
  obtain ⟨h1, h2, h3, h4, h5, h6⟩ := hinv
  simp only at h1 h2 h3 h4 h5 h6
  subst h1 h2 h3 h4
  cases c with
  | lock_shared =>
    simp only [held_after, Option.some.injEq, Prod.mk.injEq] at hc
    obtain ⟨rfl, rfl⟩ := hc
    have hread : readable ⟨rc, wd, wd, wid, if rc = 0 then [] else [(T, rc)]⟩ T = true := by
      unfold readable
      by_cases hw0 : wd = 0
      · simp [hw0]
      · simp [hw0, h5 (Nat.pos_of_ne_zero hw0)]
    have e : read ⟨rc, wd, wd, wid, if rc = 0 then [] else [(T, rc)]⟩ T
        = ⟨rc + 1, wd, wd, wid, [(T, rc + 1)]⟩ := by
      by_cases hr0 : rc = 0
      · subst hr0
        simp [read, map_find, map_put, incr_zero]
      · simp [read, hr0, map_find, map_put, incr_of_lt _ hr]
    refine ⟨⟨rc + 1, wd, wd, wid, [(T, rc + 1)]⟩, ?_, ?_⟩
    · simp [call, lock_shared, hread, e]
    · exact ⟨rfl, rfl, rfl, by simp, h5, by intro h; omega⟩
  | lock =>
    simp only [held_after, Option.some.injEq, Prod.mk.injEq] at hc
    obtain ⟨rfl, rfl⟩ := hc
    have hwr : writeable (lock_enter ⟨rc, wd, wd, wid, if rc = 0 then [] else [(T, rc)]⟩ T) T
        = true := by
      unfold writeable lock_enter
      by_cases hw0 : wd = 0
      · by_cases hr0 : rc = 0
        · simp [hw0, hr0, incr_zero]
        · simp [hr0, map_size, map_begin_key]
      · simp [h5 (Nat.pos_of_ne_zero hw0)]
    have e : write (lock_enter ⟨rc, wd, wd, wid, if rc = 0 then [] else [(T, rc)]⟩ T) T
        = ⟨rc, wd + 1, wd + 1, some T, if rc = 0 then [] else [(T, rc)]⟩ := by
      simp [write, lock_enter, incr_of_lt _ hw]
    refine ⟨⟨rc, wd + 1, wd + 1, some T, if rc = 0 then [] else [(T, rc)]⟩, ?_, ?_⟩
    · simp [call, lock, lock_grant, hwr, e]
    · exact ⟨rfl, rfl, rfl, rfl, fun _ => rfl, by intro _ h; omega⟩
  | unlock_shared =>
    simp only [held_after] at hc
    by_cases hpos : 0 < rc
    · simp only [hpos, if_true, Option.some.injEq, Prod.mk.injEq] at hc
      obtain ⟨rfl, rfl⟩ := hc
      have hr0 : rc ≠ 0 := by omega
      have hdec : decr rc = rc - 1 := decr_of_pos _ hpos (by omega)
      by_cases hlast : rc - 1 = 0
      · by_cases hw0 : 0 < wd
        · refine ⟨⟨rc - 1, wd, wd, wid, []⟩, ?_, ?_⟩
          · simp [call, unlock_shared, hpos, hr0, map_find, hdec, hlast, map_erase, hw0]
          · exact ⟨rfl, rfl, rfl, by simp [hlast], h5, by omega⟩
        · refine ⟨⟨rc - 1, wd, wd, none, []⟩, ?_, ?_⟩
          · simp [call, unlock_shared, hpos, hr0, map_find, hdec, hlast, map_erase, hw0]
          · exact ⟨rfl, rfl, rfl, by simp [hlast], by intro h; exact absurd h hw0, by simp⟩
      · refine ⟨⟨rc - 1, wd, wd, wid, [(T, rc - 1)]⟩, ?_, ?_⟩
        · by_cases hw0 : 0 < wd
          · simp [call, unlock_shared, hpos, hr0, map_find, hdec, hlast, map_put, hw0]
          · simp [call, unlock_shared, hpos, hr0, map_find, hdec, hlast, map_put, hw0]
        · exact ⟨rfl, rfl, rfl, by simp [hlast], h5, by intro h; exact absurd h hlast⟩
    · simp [hpos] at hc
  | unlock =>
    simp only [held_after] at hc
    by_cases hpos : 0 < wd
    · simp only [hpos, if_true, Option.some.injEq, Prod.mk.injEq] at hc
      obtain ⟨rfl, rfl⟩ := hc
      have hid : wid = some T := h5 hpos
      subst hid
      have hdec : decr wd = wd - 1 := decr_of_pos _ hpos (by omega)
      by_cases hlast : wd - 1 = 0
      · by_cases hr0 : rc = 0
        · refine ⟨⟨rc, wd - 1, wd - 1, none, []⟩, ?_, ?_⟩
          · simp [call, unlock, hpos, hdec, hlast, hr0, map_find]
          · exact ⟨rfl, rfl, rfl, by simp [hr0], by intro h; omega, by simp⟩
        · refine ⟨⟨rc, wd - 1, wd - 1, some T, [(T, rc)]⟩, ?_, ?_⟩
          · simp [call, unlock, hpos, hdec, hlast, hr0, map_find]
          · exact ⟨rfl, rfl, rfl, by simp [hr0], fun _ => rfl, by intro h; exact absurd h hr0⟩
      · refine ⟨⟨rc, wd - 1, wd - 1, some T, if rc = 0 then [] else [(T, rc)]⟩, ?_, ?_⟩
        · simp [call, unlock, hpos, hdec, hlast]
        · exact ⟨rfl, rfl, rfl, rfl, fun _ => rfl, by intro _ h; exact absurd h hlast⟩
    · simp [hpos] at hc

theorem calls_single_inv (T : trd_id) (ops : List Call) :
    ∀ (s : shared_mutex) (r w r' w' : Nat), single_inv T s r w →
      r + ops.length < 2 ^ 64 → w + ops.length < 2 ^ 64 →
      held (r, w) ops = some (r', w') →
      ∃ s', calls s T ops = some s' ∧ single_inv T s' r' w' := by
  induction ops with
  | nil =>
    intro s r w r' w' hinv _ _ hh
    simp only [held, Option.some.injEq, Prod.mk.injEq] at hh
    obtain ⟨rfl, rfl⟩ := hh
    exact ⟨s, rfl, hinv⟩
  | cons c cs ih =>
    intro s r w r' w' hinv hr hw hh
    simp only [List.length_cons] at hr hw
    simp only [held] at hh
    cases hc : held_after (r, w) c with
    | none => simp [hc] at hh
    | some h1 =>
      obtain ⟨r1, w1⟩ := h1
      simp only [hc, Option.some_bind] at hh
      obtain ⟨s1, hs1, hinv1⟩ :=
        call_single_inv T s r w r1 w1 c hinv (by omega) (by omega) hc
      have hb : r1 ≤ r + 1 ∧ w1 ≤ w + 1 := by
        cases c <;> simp only [held_after] at hc
        · simp only [Option.some.injEq, Prod.mk.injEq] at hc; omega
        · simp only [Option.some.injEq, Prod.mk.injEq] at hc; omega
        · split_ifs at hc
          simp only [Option.some.injEq, Prod.mk.injEq] at hc; omega
        · split_ifs at hc
          simp only [Option.some.injEq, Prod.mk.injEq] at hc; omega
      obtain ⟨s', hs', hinv'⟩ := ih s1 r1 w1 r' w' hinv1 (by omega) (by omega) hh
      exact ⟨s', by simp [calls, hs1, hs'], hinv'⟩

theorem single_inv_fresh (T : trd_id) : single_inv T shared_mutex.fresh 0 0 := by
  simp [single_inv, shared_mutex.fresh]

theorem single_inv_zero (T : trd_id) (s : shared_mutex) (h : single_inv T s 0 0) :
    s = shared_mutex.fresh := by
  obtain ⟨rc, wc, wd, wid, rd⟩ := s
  obtain ⟨h1, h2, h3, h4, _, h6⟩ := h
  have h7 := h6 rfl rfl
  simp only [if_true] at h1 h2 h3 h4 h7
  subst h1 h2 h3 h4 h7
  rfl

/-- C7: let one thread `T` operate alone on a fresh lock with any sequence of
`lock_shared` / `lock` / `unlock_shared` / `unlock` calls, shorter than
`2 ^ 64`, in which every release is preceded by a not-yet-released acquire of
its kind.  After every prefix of the sequence: all calls so far have returned
normally (each acquire found `readable()` / `writeable()` true on entry, no
assertion failed), `write_depth_` equals the number of unreleased exclusive
acquires, `w_id_` is `T` while that number is nonzero, and if nothing is held
any more the state is the fresh state again. -/
theorem C7_single_thread_reentrancy (T : trd_id) (ops : List Call)
    (hlen : ops.length < 2 ^ 64) (hbal : (held (0, 0) ops).isSome = true) (n : Nat) :
    ∃ (s : shared_mutex) (r w : Nat),
      held (0, 0) (ops.take n) = some (r, w) ∧
      calls shared_mutex.fresh T (ops.take n) = some s ∧
      s.write_depth_ = w ∧
      (0 < w → s.w_id_ = some T) ∧
      (r = 0 → w = 0 → s = shared_mutex.fresh) := by
  have hpre := held_take ops (0, 0) n hbal
  obtain ⟨⟨r, w⟩, hrw⟩ := Option.isSome_iff_exists.mp hpre
  have hl : (ops.take n).length ≤ ops.length := by simp
  obtain ⟨s, hs, hinv⟩ :=
    calls_single_inv T (ops.take n) shared_mutex.fresh 0 0 r w (single_inv_fresh T)
      (by omega) (by omega) hrw
  refine ⟨s, r, w, hrw, hs, hinv.2.2.1, hinv.2.2.2.2.1, ?_⟩
  intro hr0 hw0
  subst hr0 hw0
  exact single_inv_zero T s hinv

/-- Witness for C7: shared, upgrade, recursive exclusive, then everything
released, inspected after all eight calls. -/
theorem C7_single_thread_reentrancy_witness :
    ∃ (s : shared_mutex) (r w : Nat),
      held (0, 0) (List.take 8 [Call.lock_shared, Call.lock, Call.lock, Call.lock_shared,
        Call.unlock, Call.unlock_shared, Call.unlock, Call.unlock_shared]) = some (r, w) ∧
      calls shared_mutex.fresh 5 (List.take 8 [Call.lock_shared, Call.lock, Call.lock,
        Call.lock_shared, Call.unlock, Call.unlock_shared, Call.unlock, Call.unlock_shared])
        = some s ∧
      s.write_depth_ = w ∧
      (0 < w → s.w_id_ = some 5) ∧
      (r = 0 → w = 0 → s = shared_mutex.fresh) :=
  C7_single_thread_reentrancy 5 [Call.lock_shared, Call.lock, Call.lock, Call.lock_shared,
    Call.unlock, Call.unlock_shared, Call.unlock, Call.unlock_shared] (by simp) (by decide) 8

/-! ## Blocking queue -/

theorem push_all_queue {α : Type} (C : Container α) (hC : ∀ q x, C.push q x = q ++ [x])
    (xs : List α) :
    ∀ s : safe_queue_base α, (s.push_all C xs).queue_ = s.queue_ ++ xs := by
  induction xs with
  | nil => intro s; simp [safe_queue_base.push_all]
  | cons x xs ih =>
    intro s
    simp [safe_queue_base.push_all, ih, safe_queue_base.push, hC]

theorem pop_as_of_front {α : Type} (C : Container α) (s : safe_queue_base α) (x : α)
    (q : List α) (hne : s.queue_ ≠ []) (hf : C.front s.queue_ = some x)
    (hp : C.pop s.queue_ = some q) (f : PopForm) :
    s.pop_as C f = Popped.value x { queue_ := q, size_ := decr s.size_ } := by
  have he : s.queue_.isEmpty = false := by
    cases hq : s.queue_ with
    | nil => exact absurd hq hne
    | cons _ _ => rfl
  cases f <;>
    simp [safe_queue_base.pop_as, safe_queue_base.wait_and_pop, safe_queue_base.wait_and_pop_ptr,
      safe_queue_base.try_pop, safe_queue_base.try_pop_ptr, safe_queue_base.take_front, he, hf, hp]

theorem std_queue_pop_all {α : Type} (forms : List PopForm) :
    ∀ (xs : List α) (c : Nat), forms.length = xs.length →
      ∃ s' : safe_queue_base α,
        safe_queue_base.pop_all (std_queue α) { queue_ := xs, size_ := c } forms = some (xs, s') ∧
        s'.queue_ = [] := by
  induction forms with
  | nil =>
    intro xs c h
    have hx : xs = [] := List.length_eq_zero.mp h.symm
    subst hx
    exact ⟨_, rfl, rfl⟩
  | cons f fs ih =>
    intro xs c h
    cases xs with
    | nil => simp at h
    | cons x rest =>
      have hl : fs.length = rest.length := by simpa using h
      obtain ⟨s', hs', he⟩ := ih rest (decr c) hl
      have hpop := pop_as_of_front (std_queue α) { queue_ := x :: rest, size_ := c } x rest
        (by simp) rfl rfl f
      refine ⟨s', ?_, he⟩
      simp only [safe_queue_base.pop_all, hpop, hs', Option.map_some']

theorem std_queue_fifo_round_trip {α : Type} (xs : List α) (forms : List PopForm) (c : Nat)
    (h : forms.length = xs.length) :
    ∃ s' : safe_queue_base α,
      safe_queue_base.pop_all (std_queue α)
        (safe_queue_base.push_all (std_queue α) { queue_ := [], size_ := c } xs) forms
        = some (xs, s') ∧
      s'.queue_ = [] := by
  have hq := push_all_queue (std_queue α) (fun _ _ => rfl) xs { queue_ := [], size_ := c }
  simp only [List.nil_append] at hq
  obtain ⟨s', hs', he⟩ := std_queue_pop_all forms xs
    (safe_queue_base.push_all (std_queue α) { queue_ := [], size_ := c } xs).size_ h
  refine ⟨s', ?_, he⟩
  rw [← hs']
  congr 1
  cases hp : safe_queue_base.push_all (std_queue α) { queue_ := [], size_ := c } xs with
  | mk q n =>
    rw [hp] at hq
    simp only at hq
    subst hq
    rfl

/-- C11 (fails on the code): `safe_queue<T>` is
`safe_queue_base<T, std::deque<T>>`, and `std::deque` has no member `push` and
no member `pop` (it has `push_back`, `pop_front` and their mirror images).
`safe_queue<T>::push` and every pop form call `queue_.push` and `queue_.pop`,
so they cannot be instantiated: the deque-backed queue has no push and no pop
to round-trip through.  The round trip that the claim describes is what the
same template does over `std::queue<T>`, which has the three members: pushing
`x1..xn` and popping `n` times in any of the untimed forms hands back `x1..xn`
in order and leaves the container empty, and `push(x)` followed by
`wait_and_pop()` hands back `x`. -/
theorem C11_safe_queue_has_no_push_and_no_pop {α : Type} :
    (std_deque α).push = none ∧
    (std_deque α).pop = none ∧
    (safe_queue α).isNone = true ∧
    (std_queue_members α).container.isSome = true ∧
    (∀ (xs : List α) (forms : List PopForm) (c : Nat), forms.length = xs.length →
      ∃ s' : safe_queue_base α,
        safe_queue_base.pop_all (std_queue α)
          (safe_queue_base.push_all (std_queue α) { queue_ := [], size_ := c } xs) forms
          = some (xs, s') ∧
        s'.queue_ = []) ∧
    ∀ (x : α) (c : Nat),
      safe_queue_base.wait_and_pop_ptr (std_queue α)
        (safe_queue_base.push (std_queue α) { queue_ := [], size_ := c } x)
        = Popped.value x { queue_ := [], size_ := decr (incr c) } := by
  refine ⟨rfl, rfl, rfl, rfl, ?_, ?_⟩
  · intro xs forms c h
    exact std_queue_fifo_round_trip xs forms c h
  · intro x c
    rfl

/-- C12 (fails on the code): at the end of a timed wait with the container
still empty, `bool wait_and_pop(T&, timer)` returns `false` and leaves container
and counter unchanged, but `std::shared_ptr<T> wait_and_pop(timer)` has no test
for emptiness: it goes on to `queue_.front()` on the empty container instead of
returning a null pointer.  Shown over `std::queue` and over the priority queue
of `safe_priorqueue`. -/
theorem C12_timed_pop_ptr_reads_empty_container (c : Nat) :
    safe_queue_base.wait_and_pop_timed (std_queue Nat) { queue_ := [], size_ := c }
        = Popped.absent { queue_ := [], size_ := c } ∧
      safe_queue_base.wait_and_pop_ptr_timed (std_queue Nat) { queue_ := [], size_ := c }
        = Popped.undefined { queue_ := [], size_ := c } ∧
      safe_queue_base.wait_and_pop_ptr_timed (priority_queue Nat) { queue_ := [], size_ := c }
        = Popped.undefined { queue_ := [], size_ := c } := by
  exact ⟨rfl, rfl, rfl⟩

theorem foldl_max_ge {α : Type} [LinearOrder α] (xs : List α) :
    ∀ x : α, x ≤ xs.foldl max x ∧ ∀ y ∈ xs, y ≤ xs.foldl max x := by
  induction xs with
  | nil => intro x; simp
  | cons a xs ih =>
    intro x
    obtain ⟨h1, h2⟩ := ih (max x a)
    refine ⟨le_trans (le_max_left x a) h1, ?_⟩
    intro y hy
    rcases List.mem_cons.mp hy with rfl | hy
    · exact le_trans (le_max_right x y) h1
    · exact h2 y hy

theorem foldl_max_mem {α : Type} [LinearOrder α] (xs : List α) :
    ∀ x : α, xs.foldl max x ∈ x :: xs := by
  induction xs with
  | nil => intro x; simp
  | cons a xs ih =>
    intro x
    have h := ih (max x a)
    rcases List.mem_cons.mp h with h | h
    · rcases max_choice x a with hm | hm
      · rw [List.foldl_cons, h, hm]; simp
      · rw [List.foldl_cons, h, hm]; simp
    · rw [List.foldl_cons]
      exact List.mem_cons_of_mem _ (List.mem_cons_of_mem _ h)

theorem pq_top_spec {α : Type} [LinearOrder α] (q : List α) (hne : q ≠ []) :
    ∃ m, pq_top q = some m ∧ m ∈ q ∧ ∀ y ∈ q, y ≤ m := by
  cases q with
  | nil => exact absurd rfl hne
  | cons x xs =>
    refine ⟨xs.foldl max x, rfl, foldl_max_mem xs x, ?_⟩
    intro y hy
    rcases List.mem_cons.mp hy with rfl | hy
    · exact (foldl_max_ge xs y).1
    · exact (foldl_max_ge xs x).2 y hy

theorem priority_pop_all {α : Type} [LinearOrder α] (forms : List PopForm) :
    ∀ (q : List α) (c : Nat), forms.length = q.length →
      ∃ (out : List α) (s' : safe_queue_base α),
        safe_queue_base.pop_all (priority_queue α) { queue_ := q, size_ := c } forms
          = some (out, s') ∧
        out.Perm q ∧ out.Sorted (fun a b => b ≤ a) ∧ s'.queue_ = [] := by
  induction forms with
  | nil =>
    intro q c h
    have hx : q = [] := List.length_eq_zero.mp h.symm
    subst hx
    exact ⟨[], _, rfl, List.Perm.refl _, List.sorted_nil, rfl⟩
  | cons f fs ih =>
    intro q c h
    have hne : q ≠ [] := by
      intro hq
      subst hq
      simp at h
    obtain ⟨m, hm, hmem, hmax⟩ := pq_top_spec q hne
    have hl : fs.length = (q.erase m).length := by
      rw [List.length_erase_of_mem hmem, ← h]
      simp
    obtain ⟨out, s', hs', hperm, hsorted, he⟩ := ih (q.erase m) (decr c) hl
    have hpop := pop_as_of_front (priority_queue α) { queue_ := q, size_ := c } m (q.erase m)
      hne hm (by simp [priority_queue, hm]) f
    refine ⟨m :: out, s', ?_, ?_, ?_, he⟩
    · simp only [safe_queue_base.pop_all, hpop, hs', Option.map_some']
    · exact (List.Perm.cons m hperm).trans (List.perm_cons_erase hmem).symm
    · refine List.sorted_cons.mpr ⟨?_, hsorted⟩
      intro b hb
      exact hmax b (List.mem_of_mem_erase (hperm.subset hb))

/-- C13: on a `safe_priorqueue` whose container is empty, pushing any finite
list and then popping as many times as were pushed (in any untimed form) hands
back a permutation of the pushed list that is non-increasing under `operator<`;
pushing 3, 1, 4, 1, 5 pops 5, 4, 3, 1, 1. -/
theorem C13_priority_order {α : Type} [LinearOrder α] (xs : List α) (forms : List PopForm)
    (c : Nat) (h : forms.length = xs.length) :
    (∃ (out : List α) (s' : safe_queue_base α),
      safe_queue_base.pop_all (priority_queue α)
        (safe_queue_base.push_all (priority_queue α) { queue_ := [], size_ := c } xs) forms
        = some (out, s') ∧
      out.Perm xs ∧ out.Sorted (fun a b => b ≤ a) ∧ s'.queue_ = []) ∧
    ∃ s' : safe_queue_base Nat,
      safe_queue_base.pop_all (priority_queue Nat)
        (safe_queue_base.push_all (priority_queue Nat) { queue_ := [], size_ := 0 }
          [3, 1, 4, 1, 5])
        [PopForm.try_pop, PopForm.try_pop, PopForm.try_pop, PopForm.try_pop, PopForm.try_pop]
        = some ([5, 4, 3, 1, 1], s') := by
  constructor
  · have hq := push_all_queue (priority_queue α) (fun _ _ => rfl) xs { queue_ := [], size_ := c }
    simp only [List.nil_append] at hq
    cases hp : safe_queue_base.push_all (priority_queue α) { queue_ := [], size_ := c } xs with
    | mk q n =>
      rw [hp] at hq
      simp only at hq
      subst hq
      exact priority_pop_all forms q n h
  · exact ⟨_, rfl⟩

/-- Witness for C13: the pushes 2, 9, 4 popped in three different forms. -/
theorem C13_priority_order_witness :
    (∃ (out : List Nat) (s' : safe_queue_base Nat),
      safe_queue_base.pop_all (priority_queue Nat)
        (safe_queue_base.push_all (priority_queue Nat) { queue_ := [], size_ := 0 } [2, 9, 4])
        [PopForm.try_pop, PopForm.wait_and_pop, PopForm.try_pop_ptr]
        = some (out, s') ∧
      out.Perm [2, 9, 4] ∧ out.Sorted (fun a b => b ≤ a) ∧ s'.queue_ = []) ∧
    ∃ s' : safe_queue_base Nat,
      safe_queue_base.pop_all (priority_queue Nat)
        (safe_queue_base.push_all (priority_queue Nat) { queue_ := [], size_ := 0 }
          [3, 1, 4, 1, 5])
        [PopForm.try_pop, PopForm.try_pop, PopForm.try_pop, PopForm.try_pop, PopForm.try_pop]
        = some ([5, 4, 3, 1, 1], s') :=
  C13_priority_order [2, 9, 4] [PopForm.try_pop, PopForm.wait_and_pop, PopForm.try_pop_ptr] 0 rfl

/-- C14: both `try_pop` forms report absent and leave container and counter
unchanged when the container is empty.  When it is non-empty they hand back
the front element, remove it, and decrement the counter (`--size_`, exactly
one less for a counter in `1 .. 2 ^ 64 - 1`): over `std::queue` the head of the
sequence, over the priority queue the top element. -/
theorem C14_try_pop {α : Type} [LinearOrder α] (C : Container α) (c : Nat) :
    (safe_queue_base.try_pop C { queue_ := [], size_ := c }
        = Popped.absent { queue_ := [], size_ := c } ∧
      safe_queue_base.try_pop_ptr C { queue_ := [], size_ := c }
        = Popped.absent { queue_ := [], size_ := c }) ∧
    (∀ (x : α) (rest : List α),
      (std_queue α).front (x :: rest) = some x ∧
      safe_queue_base.try_pop (std_queue α) { queue_ := x :: rest, size_ := c }
        = Popped.value x { queue_ := rest, size_ := decr c } ∧
      safe_queue_base.try_pop_ptr (std_queue α) { queue_ := x :: rest, size_ := c }
        = Popped.value x { queue_ := rest, size_ := decr c }) ∧
    (∀ q : List α, q ≠ [] →
      ∃ m, (priority_queue α).front q = some m ∧ m ∈ q ∧ (∀ y ∈ q, y ≤ m) ∧
        safe_queue_base.try_pop (priority_queue α) { queue_ := q, size_ := c }
          = Popped.value m { queue_ := q.erase m, size_ := decr c } ∧
        safe_queue_base.try_pop_ptr (priority_queue α) { queue_ := q, size_ := c }
          = Popped.value m { queue_ := q.erase m, size_ := decr c }) ∧
    (0 < c → c < 2 ^ 64 → decr c = c - 1) := by
  refine ⟨⟨rfl, rfl⟩, fun x rest => ⟨rfl, rfl, rfl⟩, ?_, fun h0 h1 => decr_of_pos c h0 h1⟩
  intro q hne
  obtain ⟨m, hm, hmem, hmax⟩ := pq_top_spec q hne
  have hp : (priority_queue α).pop q = some (q.erase m) := by simp [priority_queue, hm]
  refine ⟨m, hm, hmem, hmax, ?_, ?_⟩
  · exact pop_as_of_front (priority_queue α) { queue_ := q, size_ := c } m (q.erase m) hne hm hp
      PopForm.try_pop
  · exact pop_as_of_front (priority_queue α) { queue_ := q, size_ := c } m (q.erase m) hne hm hp
      PopForm.try_pop_ptr

/-! ## Spin lock -/

theorem try_loop_first_clear (obs : Nat → Bool) (k : Nat) :
    ∀ (cnt probes : Nat) (flg : Bool), k < cnt →
      (∀ j, j < k → obs (probes + j) = true) → obs (probes + k) = false →
      spin_lock.try_loop obs cnt probes flg = (cnt - k, probes + k + 1, true) := by
  induction k with
  | zero =>
    intro cnt probes flg hk _ hc
    cases cnt with
    | zero => omega
    | succ c =>
      have h0 : obs probes = false := by simpa using hc
      simp [spin_lock.try_loop, h0]
  | succ k ih =>
    intro cnt probes flg hk hs hc
    cases cnt with
    | zero => omega
    | succ c =>
      have h0 : obs probes = true := by simpa using hs 0 (by omega)
      have hrec := ih c (probes + 1) true (by omega)
        (fun j hj => by
          have := hs (j + 1) (by omega)
          rwa [show probes + (j + 1) = probes + 1 + j by omega] at this)
        (by rwa [show probes + (k + 1) = probes + 1 + k by omega] at hc)
      simp only [spin_lock.try_loop, h0, if_true, hrec]
      refine Prod.ext ?_ (Prod.ext ?_ rfl)
      · simp
      · simp only
        omega

theorem try_loop_all_set (obs : Nat → Bool) :
    ∀ (cnt probes : Nat) (flg : Bool), 0 < cnt →
      (∀ j, j < cnt → obs (probes + j) = true) →
      spin_lock.try_loop obs cnt probes flg = (0, probes + cnt, true) := by
  intro cnt
  induction cnt with
  | zero => intro probes flg h; omega
  | succ c ih =>
    intro probes flg _ hs
    have h0 : obs probes = true := by simpa using hs 0 (by omega)
    cases c with
    | zero => simp [spin_lock.try_loop, h0]
    | succ c =>
      have hrec := ih (probes + 1) true (by omega)
        (fun j hj => by
          have := hs (j + 1) (by omega)
          rwa [show probes + (j + 1) = probes + 1 + j by omega] at this)
      rw [spin_lock.try_loop]
      simp only [h0, if_true, hrec]
      refine Prod.ext ?_ (Prod.ext ?_ rfl)
      · rfl
      · simp only
        omega

theorem try_loop_probes_le (obs : Nat → Bool) :
    ∀ (cnt probes : Nat) (flg : Bool),
      (spin_lock.try_loop obs cnt probes flg).2.1 ≤ probes + cnt := by
  intro cnt
  induction cnt with
  | zero => intro probes flg; simp [spin_lock.try_loop]
  | succ c ih =>
    intro probes flg
    rw [spin_lock.try_loop]
    split_ifs
    · have := ih (probes + 1) true
      omega
    · simp only
      omega

/-- C15: `spin_lock::try_lock` is a bounded retry.  If probe number `k < 100`
is the first to find the flag clear, the call returns `true` after exactly
`k + 1` probes with the flag set; if all of the first 100 probes find the flag
set, the call makes exactly 100 probes, returns `false` and leaves the flag
set; in no case does it make more than 100 probes. -/
theorem C15_spin_try_lock_bounded (obs : Nat → Bool) :
    (∀ k, k < 100 → (∀ j, j < k → obs j = true) → obs k = false →
      spin_lock.try_lock obs = (true, k + 1, true)) ∧
    ((∀ j, j < 100 → obs j = true) → spin_lock.try_lock obs = (false, 100, true)) ∧
    (spin_lock.try_lock obs).2.1 ≤ 100 := by
  refine ⟨?_, ?_, ?_⟩
  · intro k hk hs hc
    have h := try_loop_first_clear obs k 100 0 (obs 0) hk
      (fun j hj => by simpa using hs j hj) (by simpa using hc)
    simp only [spin_lock.try_lock, h]
    refine Prod.ext ?_ (Prod.ext ?_ rfl)
    · simp only [decide_eq_true_eq]
      omega
    · simp
  · intro hs
    have h := try_loop_all_set obs 100 0 (obs 0) (by omega) (fun j hj => by simpa using hs j hj)
    simp only [spin_lock.try_lock, h]
    refine Prod.ext ?_ (Prod.ext ?_ rfl)
    · simp
    · simp
  · have h := try_loop_probes_le obs 100 0 (obs 0)
    simpa [spin_lock.try_lock] using h

/-! ## Lock guards -/

/-- C16: move-constructing `g'` from a `unique_write_guard` `g` makes no call
on the lock and leaves its state unchanged, gives `g'.owns_` the value `g.owns_`
had, and sets `g.owns_` to `false`; destroying both guards afterwards (in
whatever lock states) calls `unlock()` exactly once if `g` owned the lock
before the move and not at all otherwise. -/
theorem C16_move_transfers_ownership (g : unique_write_guard) (s : shared_mutex) (T : trd_id) :
    ∃ g' g0 : unique_write_guard,
      unique_write_guard.move_ctor g s = Ended.returned (g', g0) s [] ∧
      g'.owns_ = g.owns_ ∧ g0.owns_ = false ∧
      ∀ s1 s2 : shared_mutex,
        ((unique_write_guard.dtor g0 s1 T).calls ++ (unique_write_guard.dtor g' s2 T).calls).count
            LockCall.unlock = (if g.owns_ then 1 else 0) ∧
        ((unique_write_guard.dtor g' s1 T).calls ++ (unique_write_guard.dtor g0 s2 T).calls).count
            LockCall.unlock = (if g.owns_ then 1 else 0) := by
  refine ⟨{ owns_ := g.owns_ }, { owns_ := false }, rfl, rfl, rfl, ?_⟩
  intro s1 s2
  cases hg : g.owns_ with
  | false => simp [unique_write_guard.dtor, Ended.calls]
  | true =>
    constructor
    · cases h2 : app.unlock s2 T <;> simp [unique_write_guard.dtor, Ended.calls, h2]
    · cases h1 : app.unlock s1 T <;> simp [unique_write_guard.dtor, Ended.calls, h1]

/-- C18: on a `unique_write_guard`, `lock()` and `try_lock()` called while
`owns_` is true and `unlock()` called while `owns_` is false end in the fatal
assertion before any call on the lock.  Otherwise `lock()` calls `lock()` on the
lock and sets `owns_` to true once that call returns, `unlock()` calls
`unlock()` on the lock and sets `owns_` to false once that call returns, and
`try_lock()` sets `owns_` to exactly the value returned by the lock's
`try_lock()` and returns it. -/
theorem C18_write_guard_assertions (g : unique_write_guard) (s : shared_mutex) (T : trd_id) :
    (g.owns_ = true →
      unique_write_guard.lock g s T = Ended.fatal s [] ∧
      unique_write_guard.try_lock g s T = Ended.fatal s []) ∧
    (g.owns_ = false → unique_write_guard.unlock g s T = Ended.fatal s []) ∧
    (g.owns_ = false →
      (∀ s', app.lock s T = some s' →
        unique_write_guard.lock g s T = Ended.returned { owns_ := true } s' [LockCall.lock]) ∧
      (app.lock s T = none →
        unique_write_guard.lock g s T = Ended.waiting (lock_enter s T) [LockCall.lock]) ∧
      unique_write_guard.try_lock g s T
        = Ended.returned ((app.try_lock s T).1, { owns_ := (app.try_lock s T).1 })
            (app.try_lock s T).2 [LockCall.try_lock]) ∧
    (g.owns_ = true →
      (∀ s', app.unlock s T = Outcome.ok s' →
        unique_write_guard.unlock g s T
          = Ended.returned { owns_ := false } s' [LockCall.unlock]) ∧
      (∀ s', app.unlock s T = Outcome.fatal s' →
        unique_write_guard.unlock g s T = Ended.fatal s' [LockCall.unlock])) := by
  refine ⟨?_, ?_, ?_, ?_⟩
  · intro h
    simp [unique_write_guard.lock, unique_write_guard.try_lock, h]
  · intro h
    simp [unique_write_guard.unlock, h]
  · intro h
    refine ⟨?_, ?_, ?_⟩
    · intro s' hs
      simp [unique_write_guard.lock, h, hs]
    · intro hs
      simp [unique_write_guard.lock, h, hs]
    · simp [unique_write_guard.try_lock, h]
  · intro h
    refine ⟨?_, ?_⟩
    · intro s' hs
      simp [unique_write_guard.unlock, h, hs]
    · intro s' hs
      simp [unique_write_guard.unlock, h, hs]

theorem map_find_erase_self (m : map_depth) (id : trd_id) :
    map_find (map_erase m id) id = none := by
  induction m with
  | nil => rfl
  | cons e m ih =>
    obtain ⟨k, w⟩ := e
    by_cases hk : k = id
    · simpa [map_erase, List.filter_cons, hk] using ih
    · simpa [map_erase, List.filter_cons, hk, map_find] using ih

theorem read_counts (T : trd_id) (c0 e0 k : Nat) (s : shared_mutex)
    (hc : s.read_cnt_ = c0 + k)
    (he : map_find s.read_depth_ T = (if e0 + k = 0 then none else some (e0 + k)))
    (hbc : c0 + k + 1 < 2 ^ 64) (hbe : e0 + k + 1 < 2 ^ 64) :
    (read s T).read_cnt_ = c0 + (k + 1) ∧
      map_find (read s T).read_depth_ T
        = (if e0 + (k + 1) = 0 then none else some (e0 + (k + 1))) := by
  have hd : (map_find s.read_depth_ T).getD 0 = e0 + k := by
    rw [he]
    split_ifs with h0
    · simp [h0]
    · rfl
  constructor
  · simp only [read, hc]
    exact incr_of_lt _ hbc
  · simp only [read, map_find_put_self, hd, incr_of_lt _ hbe]
    have : ¬ (e0 + (k + 1) = 0) := by omega
    simp only [this, if_false]
    rfl

theorem unlock_shared_counts (T : trd_id) (c0 e0 k : Nat) (s : shared_mutex) (hk : 0 < k)
    (hc : s.read_cnt_ = c0 + k)
    (he : map_find s.read_depth_ T = (if e0 + k = 0 then none else some (e0 + k)))
    (hbc : c0 + k < 2 ^ 64) (hbe : e0 + k < 2 ^ 64) :
    ∃ s', unlock_shared s T = Outcome.ok s' ∧ s'.read_cnt_ = c0 + (k - 1) ∧
      map_find s'.read_depth_ T
        = (if e0 + (k - 1) = 0 then none else some (e0 + (k - 1))) := by
  have hne : ¬ (e0 + k = 0) := by omega
  simp only [hne, if_false] at he
  have hpos : ¬ ¬ (s.read_cnt_ > 0) := by rw [hc]; omega
  have hdc : decr s.read_cnt_ = c0 + (k - 1) := by
    rw [hc, decr_of_pos _ (by omega) hbc]
    omega
  have hde : decr (e0 + k) = e0 + (k - 1) := by
    rw [decr_of_pos _ (by omega) hbe]
    omega
  have hdpos : ¬ ¬ (e0 + k > 0) := by omega
  unfold unlock_shared
  simp only [hpos, if_false, he, hdpos, hdc, hde]
  by_cases hz : e0 + (k - 1) = 0
  · simp only [hz, if_true]
    split_ifs <;> exact ⟨_, rfl, rfl, map_find_erase_self _ _⟩
  · simp only [hz, if_false]
    split_ifs <;> exact ⟨_, rfl, rfl, map_find_put_self _ _ _⟩

theorem guard_apply_inv (T : trd_id) (c0 e0 k : Nat) (g g' : unique_read_guard)
    (s s' : shared_mutex) (op : GuardOp) (b : Bool)
    (hinv : guard_inv T c0 e0 g s k)
    (hbc : c0 + k + 1 < 2 ^ 64) (hbe : e0 + k + 1 < 2 ^ 64)
    (h : unique_read_guard.apply T g s op = some (g', s', b)) :
    ∃ k', guard_inv T c0 e0 g' s' k' ∧
      k' + (if op = GuardOp.unlock then 1 else 0) = k + (if b = true then 1 else 0) := by
  obtain ⟨hg, hc, he⟩ := hinv
  cases op with
  | lock =>
    simp only [unique_read_guard.apply, unique_read_guard.lock, lock_shared] at h
    by_cases hr : readable s T = true
    · simp only [hr, if_true] at h
      by_cases hm : g.owns_ref_ = INT_MAX
      · simp [hm, Ended.normal] at h
      · simp only [hm, if_false, Ended.normal, Option.map_some', Option.some.injEq,
          Prod.mk.injEq] at h
        obtain ⟨rfl, rfl, rfl⟩ := h
        obtain ⟨h1, h2⟩ := read_counts T c0 e0 k s hc he hbc hbe
        exact ⟨k + 1, ⟨by simp [hg], h1, h2⟩, by simp⟩
    · simp [hr, Ended.normal] at h
  | try_lock =>
    simp only [unique_read_guard.apply, unique_read_guard.try_lock, try_lock_shared] at h
    by_cases hr : readable s T = true
    · simp only [hr, if_true] at h
      by_cases hm : g.owns_ref_ = INT_MAX
      · simp [hm, Ended.normal] at h
      · simp only [hm, if_false, Ended.normal, Option.map_some', Option.some.injEq,
          Prod.mk.injEq] at h
        obtain ⟨rfl, rfl, rfl⟩ := h
        obtain ⟨h1, h2⟩ := read_counts T c0 e0 k s hc he hbc hbe
        exact ⟨k + 1, ⟨by simp [hg], h1, h2⟩, by simp⟩
    · simp only [hr, Bool.false_eq_true, if_false, Ended.normal, Option.map_some',
        Option.some.injEq, Prod.mk.injEq] at h
      obtain ⟨rfl, rfl, rfl⟩ := h
      exact ⟨k, ⟨hg, hc, he⟩, by simp⟩
  | unlock =>
    simp only [unique_read_guard.apply, unique_read_guard.unlock] at h
    by_cases hp : g.owns_ref_ > 0
    · have hk : 0 < k := by
        rw [hg] at hp
        exact_mod_cast hp
      obtain ⟨s1, hs1, h1, h2⟩ :=
        unlock_shared_counts T c0 e0 k s hk hc he (by omega) (by omega)
      have hnp : ¬ ¬ (g.owns_ref_ > 0) := not_not.mpr hp
      simp only [hnp, if_false, hs1, Ended.normal, Option.map_some', Option.some.injEq,
        Prod.mk.injEq] at h
      obtain ⟨rfl, rfl, rfl⟩ := h
      refine ⟨k - 1, ⟨?_, h1, h2⟩, by simp; omega⟩
      simp only [hg]
      omega
    · simp [hp, Ended.normal] at h

theorem guard_run_inv (T : trd_id) (c0 e0 : Nat) (ops : List GuardOp) :
    ∀ (k : Nat) (g g' : unique_read_guard) (s s' : shared_mutex) (res : List Bool),
      guard_inv T c0 e0 g s k →
      c0 + k + ops.length < 2 ^ 64 → e0 + k + ops.length < 2 ^ 64 →
      unique_read_guard.run T g s ops = some (g', s', res) →
      ∃ k', guard_inv T c0 e0 g' s' k' ∧ k' + released ops = k + acquired res ∧
        k' ≤ k + ops.length := by
  induction ops with
  | nil =>
    intro k g g' s s' res hinv _ _ h
    simp only [unique_read_guard.run, Option.some.injEq, Prod.mk.injEq] at h
    obtain ⟨rfl, rfl, rfl⟩ := h
    exact ⟨k, hinv, by simp [released, acquired], by simp⟩
  | cons op ops ih =>
    intro k g g' s s' res hinv hbc hbe h
    simp only [List.length_cons] at hbc hbe
    simp only [unique_read_guard.run] at h
    cases ha : unique_read_guard.apply T g s op with
    | none => simp [ha] at h
    | some r =>
      obtain ⟨g1, s1, b⟩ := r
      simp only [ha] at h
      cases hr : unique_read_guard.run T g1 s1 ops with
      | none => simp [hr] at h
      | some r2 =>
        obtain ⟨g2, s2, res2⟩ := r2
        simp only [hr, Option.map_some', Option.some.injEq, Prod.mk.injEq] at h
        obtain ⟨rfl, rfl, rfl⟩ := h
        obtain ⟨k1, hinv1, hk1⟩ :=
          guard_apply_inv T c0 e0 k g g1 s s1 op b hinv (by omega) (by omega) ha
        have hk1le : k1 ≤ k + 1 := by
          split_ifs at hk1 <;> omega
        obtain ⟨k2, hinv2, hk2, hle⟩ :=
          ih k1 g1 g2 s1 s2 res2 hinv1 (by omega) (by omega) hr
        refine ⟨k2, hinv2, ?_, by simp only [List.length_cons]; omega⟩
        have hrel : released (op :: ops)
            = released ops + (if op = GuardOp.unlock then 1 else 0) := by
          unfold released
          rw [List.count_cons]
          by_cases ho : op = GuardOp.unlock <;> simp [ho]
        have hacq : acquired (b :: res2) = acquired res2 + (if b = true then 1 else 0) := by
          unfold acquired
          rw [List.count_cons]
          cases b <;> simp
        rw [hrel, hacq]
        omega

theorem guard_dtor_loop (T : trd_id) (c0 e0 : Nat) :
    ∀ (k fuel : Nat) (s : shared_mutex) (calls : List LockCall),
      k < fuel → s.read_cnt_ = c0 + k →
      map_find s.read_depth_ T = (if e0 + k = 0 then none else some (e0 + k)) →
      c0 + k < 2 ^ 64 → e0 + k < 2 ^ 64 →
      ∃ s', unique_read_guard.dtor_loop T fuel (k : Int) s calls
          = Ended.returned { owns_ref_ := -1 } s'
              (calls ++ List.replicate k LockCall.unlock_shared) ∧
        s'.read_cnt_ = c0 ∧
        map_find s'.read_depth_ T = (if e0 = 0 then none else some e0) := by
  intro k
  induction k with
  | zero =>
    intro fuel s calls hf hc he _ _
    cases fuel with
    | zero => omega
    | succ f =>
      refine ⟨s, ?_, by simpa using hc, by simpa using he⟩
      simp [unique_read_guard.dtor_loop, INT_MIN]
  | succ k ih =>
    intro fuel s calls hf hc he hbc hbe
    cases fuel with
    | zero => omega
    | succ f =>
      obtain ⟨s1, hs1, h1, h2⟩ :=
        unlock_shared_counts T c0 e0 (k + 1) s (by omega) hc he hbc hbe
      simp only [Nat.add_sub_cancel] at h1 h2
      obtain ⟨s', hs', hc', he'⟩ :=
        ih f s1 (calls ++ [LockCall.unlock_shared]) (by omega) h1 h2 (by omega) (by omega)
      refine ⟨s', ?_, hc', he'⟩
      have hpos : ((k + 1 : Nat) : Int) > 0 := by exact_mod_cast Nat.succ_pos k
      have hsub : ((k + 1 : Nat) : Int) - 1 = (k : Int) := by push_cast; ring
      rw [unique_read_guard.dtor_loop]
      simp only [hpos, if_true, hs1, hsub, hs']
      simp [List.replicate_succ]

/-- C17: let thread `T` construct a `unique_read_guard` on a lock in state `s0`
(where `T` has no depth entry or a positive one, and the counters are far
enough from `2 ^ 64`), and then call `lock()`, `try_lock()` and `unlock()` on it
in any order, all calls returning normally (so there is no `unlock()` while
`owns_ref_ == 0`).  Then `owns_ref_` equals the number of successful acquires
of the guard, the constructor included, minus the number of its unlocks; the
destructor returns after calling `unlock_shared()` exactly `owns_ref_` times;
and afterwards `read_cnt_` and the depth entry of `T` are what they were in
`s0`. -/
theorem C17_read_guard_releases_what_it_acquired (T : trd_id) (s0 : shared_mutex)
    (ops : List GuardOp)
    (hentry : map_find s0.read_depth_ T ≠ some 0)
    (hbc : s0.read_cnt_ + ops.length + 1 < 2 ^ 64)
    (hbe : (map_find s0.read_depth_ T).getD 0 + ops.length + 1 < 2 ^ 64)
    (g0 : unique_read_guard) (s1 : shared_mutex)
    (hctor : (unique_read_guard.ctor s0 T).normal = some (g0, s1))
    (g : unique_read_guard) (s : shared_mutex) (res : List Bool)
    (hrun : unique_read_guard.run T g0 s1 ops = some (g, s, res)) :
    g.owns_ref_ = 1 + (acquired res : Int) - (released ops : Int) ∧
    0 ≤ g.owns_ref_ ∧
    ∃ sd : shared_mutex,
      unique_read_guard.dtor g s T
        = Ended.returned { owns_ref_ := -1 } sd
            (List.replicate g.owns_ref_.toNat LockCall.unlock_shared) ∧
      sd.read_cnt_ = s0.read_cnt_ ∧
      map_find sd.read_depth_ T = map_find s0.read_depth_ T := by
  have hfind : map_find s0.read_depth_ T
      = (if (map_find s0.read_depth_ T).getD 0 = 0 then none
         else some ((map_find s0.read_depth_ T).getD 0)) := by
    cases hf : map_find s0.read_depth_ T with
    | none => simp
    | some d =>
      have hd : d ≠ 0 := by
        intro h0
        rw [hf, h0] at hentry
        exact hentry rfl
      simp [hd]
  set c0 := s0.read_cnt_ with hc0
  set e0 := (map_find s0.read_depth_ T).getD 0 with he0
  have hinv0 : guard_inv T c0 e0 { owns_ref_ := 0 } s0 0 :=
    ⟨rfl, rfl, by simpa using hfind⟩
  have hctor' : unique_read_guard.apply T { owns_ref_ := 0 } s0 GuardOp.lock
      = some (g0, s1, true) := by
    simp only [unique_read_guard.ctor] at hctor
    simp [unique_read_guard.apply, hctor]
  obtain ⟨k1, hinv1, hk1⟩ :=
    guard_apply_inv T c0 e0 0 _ g0 s0 s1 GuardOp.lock true hinv0 (by omega) (by omega) hctor'
  have hk1' : k1 = 1 := by simpa using hk1
  subst hk1'
  obtain ⟨k, hinv, hk, hle⟩ :=
    guard_run_inv T c0 e0 ops 1 g0 g s1 s res hinv1 (by omega) (by omega) hrun
  obtain ⟨hg, hc, he⟩ := hinv
  obtain ⟨sd, hsd, hcd, hed⟩ :=
    guard_dtor_loop T c0 e0 k (k + 1) s [] (by omega) hc he (by omega) (by omega)
  refine ⟨?_, by rw [hg]; exact Int.natCast_nonneg k, sd, ?_, hcd, ?_⟩
  · rw [hg]
    omega
  · simp only [unique_read_guard.dtor, hg, Int.toNat_natCast]
    simpa using hsd
  · rw [hed]
    exact hfind.symm

/-- Witness for C17: a guard on the fresh lock, then `lock()`, `try_lock()`,
`unlock()`. -/
theorem C17_read_guard_releases_what_it_acquired_witness :
    ({ owns_ref_ := 2 } : unique_read_guard).owns_ref_
        = 1 + (acquired [true, true, false] : Int)
          - (released [GuardOp.lock, GuardOp.try_lock, GuardOp.unlock] : Int) ∧
    0 ≤ ({ owns_ref_ := 2 } : unique_read_guard).owns_ref_ ∧
    ∃ sd : shared_mutex,
      unique_read_guard.dtor { owns_ref_ := 2 }
          { read_cnt_ := 2, write_cnt_ := 0, write_depth_ := 0, w_id_ := none,
            read_depth_ := [(1, 2)] } 1
        = Ended.returned { owns_ref_ := -1 } sd
            (List.replicate ({ owns_ref_ := 2 } : unique_read_guard).owns_ref_.toNat
              LockCall.unlock_shared) ∧
      sd.read_cnt_ = shared_mutex.fresh.read_cnt_ ∧
      map_find sd.read_depth_ 1 = map_find shared_mutex.fresh.read_depth_ 1 :=
  C17_read_guard_releases_what_it_acquired 1 shared_mutex.fresh
    [GuardOp.lock, GuardOp.try_lock, GuardOp.unlock]
    (by decide) (by decide) (by decide)
    { owns_ref_ := 1 }
    { read_cnt_ := 1, write_cnt_ := 0, write_depth_ := 0, w_id_ := none, read_depth_ := [(1, 1)] }
    (by decide)
    { owns_ref_ := 2 }
    { read_cnt_ := 2, write_cnt_ := 0, write_depth_ := 0, w_id_ := none, read_depth_ := [(1, 2)] }
    [true, true, false]
    (by decide)

/-! ## Owner and depth -/

theorem map_erase_cons (k : trd_id) (w : Nat) (m : map_depth) (id : trd_id) :
    map_erase ((k, w) :: m) id = if k = id then map_erase m id else (k, w) :: map_erase m id := by
  by_cases hk : k = id <;> simp [map_erase, List.filter_cons, hk]

theorem map_find_erase_ne (m : map_depth) (id u : trd_id) (h : u ≠ id) :
    map_find (map_erase m id) u = map_find m u := by
  induction m with
  | nil => rfl
  | cons e m ih =>
    obtain ⟨k, w⟩ := e
    rw [map_erase_cons]
    by_cases hk : k = id
    · have hku : k ≠ u := fun e => h (e.symm.trans hk)
      simp only [hk, if_true, map_find]
      rw [ih]
      have : ¬ (id = u) := fun e => h e.symm
      simp [this]
    · simp only [hk, if_false, map_find, ih]

theorem map_find_put_isSome (m : map_depth) (id X : trd_id) (v : Nat)
    (h : (map_find m X).isSome = true) : (map_find (map_put m id v) X).isSome = true := by
  by_cases hx : X = id
  · subst hx
    simp [map_find_put_self]
  · rw [map_find_put_ne _ _ _ _ hx]
    exact h

theorem owner_ok_read (s : shared_mutex) (t : trd_id) (h : owner_ok s) :
    owner_ok (read s t) ∧ (read s t).write_depth_ = s.write_depth_ := by
  refine ⟨?_, rfl⟩
  intro X hX hd
  exact map_find_put_isSome _ _ _ _ (h X hX hd)

theorem owner_ok_write (s : shared_mutex) (t : trd_id) (hb : s.write_depth_ + 1 < 2 ^ 64) :
    owner_ok (write s t) ∧ (write s t).write_depth_ = s.write_depth_ + 1 := by
  have hw : (write s t).write_depth_ = s.write_depth_ + 1 := incr_of_lt _ hb
  refine ⟨?_, hw⟩
  intro X _ hd
  rw [hw] at hd
  omega

theorem owner_ok_unlock_shared (s s' : shared_mutex) (t : trd_id) (h : owner_ok s)
    (hu : unlock_shared s t = Outcome.ok s') :
    owner_ok s' ∧ s'.write_depth_ = s.write_depth_ := by
  by_cases h0 : s.read_cnt_ > 0
  swap
  · simp [unlock_shared, h0] at hu
  cases hf : map_find s.read_depth_ t with
  | none => simp [unlock_shared, h0, hf] at hu
  | some d =>
    by_cases h1 : d > 0
    swap
    · simp [unlock_shared, h0, hf, h1] at hu
    by_cases hw : s.write_depth_ > 0
    · by_cases hr : decr d = 0
      · simp [unlock_shared, h0, hf, h1, hr, hw] at hu
        subst hu
        exact ⟨fun X _ hd => absurd hd (by simp only; omega), rfl⟩
      · simp [unlock_shared, h0, hf, h1, hr, hw] at hu
        subst hu
        exact ⟨fun X _ hd => absurd hd (by simp only; omega), rfl⟩
    · have hw0 : s.write_depth_ = 0 := by omega
      by_cases hr : decr d = 0
      · simp [unlock_shared, h0, hf, h1, hr, hw0] at hu
        subst hu
        exact ⟨fun X hX => absurd hX (by simp), hw0.symm⟩
      · simp [unlock_shared, h0, hf, h1, hr, hw0] at hu
        subst hu
        refine ⟨fun X hX hd => ?_, hw0.symm⟩
        exact map_find_put_isSome _ _ _ _ (h X hX (by simpa using hw0))

theorem owner_ok_unlock (s s' : shared_mutex) (t : trd_id) (h : owner_ok s)
    (hu : unlock s t = Outcome.ok s') :
    owner_ok s' ∧
      (s'.write_depth_ = s.write_depth_ ∨ s'.write_depth_ = decr s.write_depth_) := by
  by_cases h0 : s.write_cnt_ > 0
  swap
  · simp [unlock, h0] at hu
  by_cases hw : s.w_id_ = some t
  · by_cases hd : decr s.write_depth_ = 0
    · by_cases hf : map_find s.read_depth_ t = none
      · simp [unlock, h0, hw, hd, hf] at hu
        subst hu
        exact ⟨fun X hX => absurd hX (by simp), Or.inr hd.symm⟩
      · simp [unlock, h0, hw, hd, hf] at hu
        subst hu
        refine ⟨fun X hX _ => ?_, Or.inr hd.symm⟩
        have hXt : X = t := by simpa using hX.symm
        subst hXt
        cases hm : map_find s.read_depth_ X with
        | none => exact absurd hm hf
        | some d => rfl
    · simp [unlock, h0, hw, hd] at hu
      subst hu
      exact ⟨fun X _ hz => absurd hz hd, Or.inr rfl⟩
  · by_cases hf : map_find s.read_depth_ t = none
    · simp [unlock, h0, hw, hf] at hu
      subst hu
      exact ⟨fun X hX => absurd hX (by simp), Or.inl rfl⟩
    · simp [unlock, h0, hw, hf] at hu
      subst hu
      exact ⟨fun X hX hd => h X hX hd, Or.inl rfl⟩

theorem step_owner_ok (sys sys' : System) (st : Step)
    (h : owner_ok sys.mtx) (hx : sys.excl.length ≤ sys.mtx.write_depth_)
    (hb : sys.mtx.write_depth_ + 1 < 2 ^ 64) (hs : step sys st = some sys') :
    owner_ok sys'.mtx ∧ sys'.excl.length ≤ sys'.mtx.write_depth_ ∧
      sys'.mtx.write_depth_ ≤ sys.mtx.write_depth_ + 1 := by
  cases st with
  | lock_shared t =>
    simp only [step] at hs
    by_cases hw : t ∈ sys.waiting
    · simp [hw] at hs
    · by_cases hr : readable sys.mtx t = true
      · simp only [hw, if_false, lock_shared, hr, if_true, Option.map_some',
          Option.some.injEq] at hs
        subst hs
        obtain ⟨h1, h2⟩ := owner_ok_read sys.mtx t h
        exact ⟨h1, by simp only [h2]; exact hx, by simp only [h2]; omega⟩
      · simp [hw, lock_shared, hr] at hs
  | try_lock_shared t =>
    simp only [step] at hs
    by_cases hw : t ∈ sys.waiting
    · simp [hw] at hs
    · by_cases hr : readable sys.mtx t = true
      · simp only [hw, if_false, try_lock_shared, hr, if_true, Option.some.injEq] at hs
        subst hs
        obtain ⟨h1, h2⟩ := owner_ok_read sys.mtx t h
        exact ⟨h1, by simp only [h2]; exact hx, by simp only [h2]; omega⟩
      · simp only [hw, if_false, try_lock_shared, hr, Bool.false_eq_true,
          Option.some.injEq] at hs
        subst hs
        exact ⟨h, hx, by simp only; omega⟩
  | unlock_shared t =>
    simp only [step] at hs
    by_cases hw : t ∈ sys.waiting ∨ t ∉ sys.shrd
    · simp [hw] at hs
    · simp only [hw, if_false] at hs
      cases hu : unlock_shared sys.mtx t with
      | ok m =>
        simp only [hu, Option.some.injEq] at hs
        subst hs
        obtain ⟨h1, h2⟩ := owner_ok_unlock_shared sys.mtx m t h hu
        exact ⟨h1, by simp only [h2]; exact hx, by simp only [h2]; omega⟩
      | fatal m => simp [hu] at hs
      | undefined m => simp [hu] at hs
  | lock_enter t =>
    simp only [step] at hs
    by_cases hw : t ∈ sys.waiting
    · simp [hw] at hs
    · simp only [hw, if_false, Option.some.injEq] at hs
      subst hs
      exact ⟨fun X hX hd => h X hX hd, hx, by simp only [lock_enter]; omega⟩
  | lock_grant t =>
    simp only [step] at hs
    by_cases hw : t ∉ sys.waiting
    · simp [hw] at hs
    · by_cases hr : writeable sys.mtx t = true
      · simp only [hw, if_false, lock_grant, hr, if_true, Option.map_some',
          Option.some.injEq] at hs
        subst hs
        obtain ⟨h1, h2⟩ := owner_ok_write sys.mtx t hb
        exact ⟨h1, by simp only [h2, List.length_cons]; omega, by simp only [h2]; omega⟩
      · simp [hw, lock_grant, hr] at hs
  | try_lock t =>
    simp only [step] at hs
    by_cases hw : t ∈ sys.waiting
    · simp [hw] at hs
    · by_cases hr : writeable sys.mtx t = true
      · simp only [hw, if_false, try_lock, hr, if_true, Option.some.injEq] at hs
        subst hs
        obtain ⟨h1, h2⟩ := owner_ok_write
          { sys.mtx with write_cnt_ := incr sys.mtx.write_cnt_ } t hb
        exact ⟨h1, by simp only [h2, List.length_cons]; omega, by simp only [h2]; omega⟩
      · simp only [hw, if_false, try_lock, hr, Bool.false_eq_true, Option.some.injEq] at hs
        subst hs
        exact ⟨h, hx, by simp only; omega⟩
  | unlock t =>
    simp only [step] at hs
    by_cases hw : t ∈ sys.waiting ∨ t ∉ sys.excl
    · simp [hw] at hs
    · have hmem : t ∈ sys.excl := by
        by_contra hc
        exact hw (Or.inr hc)
      have hlen : 0 < sys.excl.length := List.length_pos_of_mem hmem
      simp only [hw, if_false] at hs
      cases hu : unlock sys.mtx t with
      | ok m =>
        simp only [hu, Option.some.injEq] at hs
        subst hs
        obtain ⟨h1, h2⟩ := owner_ok_unlock sys.mtx m t h hu
        have hdec : decr sys.mtx.write_depth_ = sys.mtx.write_depth_ - 1 :=
          decr_of_pos _ (by omega) (by omega)
        have hel : (sys.excl.erase t).length = sys.excl.length - 1 :=
          List.length_erase_of_mem hmem
        refine ⟨h1, ?_, ?_⟩
        · simp only [hel]
          rcases h2 with h2 | h2 <;> rw [h2] <;> omega
        · simp only
          rcases h2 with h2 | h2 <;> rw [h2] <;> omega
      | fatal m => simp [hu] at hs
      | undefined m => simp [hu] at hs

theorem run_owner_ok (steps : List Step) :
    ∀ sys sys' : System, owner_ok sys.mtx → sys.excl.length ≤ sys.mtx.write_depth_ →
      sys.mtx.write_depth_ + steps.length < 2 ^ 64 → run sys steps = some sys' →
      owner_ok sys'.mtx := by
  induction steps with
  | nil =>
    intro sys sys' h _ _ hr
    simp only [run, Option.some.injEq] at hr
    subst hr
    exact h
  | cons st rest ih =>
    intro sys sys' h hx hb hr
    simp only [List.length_cons] at hb
    simp only [run] at hr
    cases hs : step sys st with
    | none => simp [hs] at hr
    | some sys1 =>
      simp only [hs, Option.some_bind] at hr
      obtain ⟨h1, h2, h3⟩ := step_owner_ok sys sys1 st h hx (by omega) hs
      exact ih sys1 sys' h1 h2 (by omega) hr

/-- C19 (counterexample): thread 1 takes a shared hold, upgrades with `lock()`,
and releases the exclusive hold with `unlock()` while keeping the shared one.
`unlock()` clears `w_id_` only when the caller has no `read_depth_` entry, so
`w_id_` still names thread 1 although `write_depth_` is 0.  The same happens
when the shared hold is taken while exclusive.  The later `unlock_shared()`
that erases the entry clears `w_id_`. -/
theorem C19_owner_kept_at_depth_zero :
    run System.fresh [.lock_shared 1, .lock_enter 1, .lock_grant 1, .unlock 1]
        = some { mtx := { read_cnt_ := 1, write_cnt_ := 0, write_depth_ := 0, w_id_ := some 1,
                          read_depth_ := [(1, 1)] },
                 excl := [], shrd := [1], waiting := [] } ∧
      run System.fresh [.lock_enter 1, .lock_grant 1, .lock_shared 1, .unlock 1]
        = some { mtx := { read_cnt_ := 1, write_cnt_ := 0, write_depth_ := 0, w_id_ := some 1,
                          read_depth_ := [(1, 1)] },
                 excl := [], shrd := [1], waiting := [] } ∧
      run System.fresh [.lock_shared 1, .lock_enter 1, .lock_grant 1, .unlock 1,
          .unlock_shared 1]
        = some System.fresh := by
  decide

/-- C19 (amended): in every state reached from the fresh lock by fewer than
`2 ^ 64` steps in which each thread releases only holds it was granted, a
`w_id_` that is set while `write_depth_` is 0 names a thread that still has a
`read_depth_` entry. -/
theorem C19_owner_at_depth_zero_is_reader (steps : List Step) (sys : System)
    (hlen : steps.length < 2 ^ 64) (hrun : run System.fresh steps = some sys)
    (X : trd_id) (hX : sys.mtx.w_id_ = some X) (hd : sys.mtx.write_depth_ = 0) :
    (map_find sys.mtx.read_depth_ X).isSome = true := by
  have h0 : owner_ok System.fresh.mtx := by
    intro Y hY
    simp [System.fresh, shared_mutex.fresh] at hY
  have h := run_owner_ok steps System.fresh sys h0
    (by simp [System.fresh, shared_mutex.fresh])
    (by simpa [System.fresh, shared_mutex.fresh] using hlen) hrun
  exact h X hX hd

/-- Witness for C19 (amended): the state after upgrade and `unlock()`. -/
theorem C19_owner_at_depth_zero_is_reader_witness :
    (map_find [(1, 1)] 1).isSome = true :=
  C19_owner_at_depth_zero_is_reader
    [.lock_shared 1, .lock_enter 1, .lock_grant 1, .unlock 1]
    { mtx := { read_cnt_ := 1, write_cnt_ := 0, write_depth_ := 0, w_id_ := some 1,
               read_depth_ := [(1, 1)] },
      excl := [], shrd := [1], waiting := [] }
    (by simp) (by decide) 1 rfl rfl

/-! ## Reader bookkeeping -/

theorem map_find_none_of_lt (m : map_depth) (id : trd_id) (h : ∀ e ∈ m, id < e.1) :
    map_find m id = none := by
  induction m with
  | nil => rfl
  | cons e m ih =>
    obtain ⟨k, w⟩ := e
    have hk : id < k := h (k, w) (List.mem_cons_self _ _)
    have hne : ¬ (k = id) := Nat.ne_of_gt hk
    simp only [map_find, hne, if_false]
    exact ih fun e he => h e (List.mem_cons_of_mem _ he)

theorem map_erase_of_lt (m : map_depth) (id : trd_id) (h : ∀ e ∈ m, id < e.1) :
    map_erase m id = m := by
  induction m with
  | nil => rfl
  | cons e m ih =>
    obtain ⟨k, w⟩ := e
    have hk : id < k := h (k, w) (List.mem_cons_self _ _)
    have hne : ¬ (k = id) := Nat.ne_of_gt hk
    rw [map_erase_cons]
    simp only [hne, if_false]
    rw [ih fun e he => h e (List.mem_cons_of_mem _ he)]

theorem mem_map_put (m : map_depth) (id : trd_id) (v : Nat) (e : trd_id × Nat)
    (he : e ∈ map_put m id v) : e ∈ m ∨ e = (id, v) := by
  induction m with
  | nil =>
    simp only [map_put, List.mem_singleton] at he
    exact Or.inr he
  | cons a m ih =>
    obtain ⟨k, w⟩ := a
    unfold map_put at he
    split_ifs at he with h1 h2
    · rcases List.mem_cons.mp he with h | h
      · exact Or.inr h
      · exact Or.inl h
    · rcases List.mem_cons.mp he with h | h
      · exact Or.inr h
      · exact Or.inl (List.mem_cons_of_mem _ h)
    · rcases List.mem_cons.mp he with h | h
      · exact Or.inl (h ▸ List.mem_cons_self _ _)
      · rcases ih h with h | h
        · exact Or.inl (List.mem_cons_of_mem _ h)
        · exact Or.inr h

theorem map_sorted_put (m : map_depth) (id : trd_id) (v : Nat) (h : map_sorted m) :
    map_sorted (map_put m id v) := by
  induction m with
  | nil => simp [map_put, map_sorted]
  | cons a m ih =>
    obtain ⟨k, w⟩ := a
    have hs := List.pairwise_cons.mp h
    unfold map_put
    split_ifs with h1 h2
    · refine List.pairwise_cons.mpr ⟨?_, h⟩
      intro e he
      rcases List.mem_cons.mp he with he | he
      · rw [he]; exact h1
      · exact lt_trans h1 (hs.1 e he)
    · refine List.pairwise_cons.mpr ⟨?_, hs.2⟩
      intro e he
      rw [h2]
      exact hs.1 e he
    · refine List.pairwise_cons.mpr ⟨?_, ih hs.2⟩
      intro e he
      rcases mem_map_put m id v e he with he | he
      · exact hs.1 e he
      · rw [he]
        exact lt_of_le_of_ne (Nat.le_of_not_lt h1) (fun e => h2 e.symm)

theorem depth_sum_put (m : map_depth) (id : trd_id) (v : Nat) (h : map_sorted m) :
    depth_sum (map_put m id v) + (map_find m id).getD 0 = depth_sum m + v := by
  induction m with
  | nil => simp [map_put, map_find, depth_sum]
  | cons a m ih =>
    obtain ⟨k, w⟩ := a
    have hs := List.pairwise_cons.mp h
    unfold map_put
    split_ifs with h1 h2
    · have hn : map_find ((k, w) :: m) id = none := by
        apply map_find_none_of_lt
        intro e he
        rcases List.mem_cons.mp he with he | he
        · rw [he]; exact h1
        · exact lt_trans h1 (hs.1 e he)
      rw [hn]
      simp only [depth_sum, List.map_cons, List.sum_cons, Option.getD_none]
      omega
    · subst h2
      simp only [map_find, if_true, depth_sum, List.map_cons, List.sum_cons, Option.getD_some]
      omega
    · have hne : ¬ (k = id) := fun e => h2 e.symm
      have := ih hs.2
      simp only [depth_sum, List.map_cons, List.sum_cons, map_find, hne, if_false] at this ⊢
      omega

theorem map_sorted_erase (m : map_depth) (id : trd_id) (h : map_sorted m) :
    map_sorted (map_erase m id) :=
  List.Pairwise.filter _ h

theorem mem_map_erase (m : map_depth) (id : trd_id) (e : trd_id × Nat)
    (he : e ∈ map_erase m id) : e ∈ m :=
  (List.mem_filter.mp he).1

theorem depth_sum_erase (m : map_depth) (id : trd_id) (h : map_sorted m) :
    depth_sum (map_erase m id) + (map_find m id).getD 0 = depth_sum m := by
  induction m with
  | nil => rfl
  | cons a m ih =>
    obtain ⟨k, w⟩ := a
    have hs := List.pairwise_cons.mp h
    rw [map_erase_cons]
    by_cases hk : k = id
    · subst hk
      simp only [if_true, map_find, Option.getD_some]
      rw [map_erase_of_lt m k hs.1]
      simp only [depth_sum, List.map_cons, List.sum_cons]
      omega
    · have := ih hs.2
      simp only [hk, if_false, map_find, depth_sum, List.map_cons, List.sum_cons] at this ⊢
      omega

theorem map_find_le_sum (m : map_depth) (id : trd_id) (d : Nat)
    (h : map_find m id = some d) : d ≤ depth_sum m := by
  induction m with
  | nil => simp [map_find] at h
  | cons a m ih =>
    obtain ⟨k, w⟩ := a
    by_cases hk : k = id
    · simp only [map_find, hk, if_true, Option.some.injEq] at h
      simp only [depth_sum, List.map_cons, List.sum_cons]
      omega
    · simp only [map_find, hk, if_false] at h
      have := ih h
      simp only [depth_sum, List.map_cons, List.sum_cons] at this ⊢
      omega

theorem reader_inv_read (s : shared_mutex) (t : trd_id) (h : reader_inv s)
    (hb : s.read_cnt_ + 1 < 2 ^ 64) :
    reader_inv (read s t) ∧ (read s t).read_cnt_ = s.read_cnt_ + 1 := by
  obtain ⟨h1, h2, h3⟩ := h
  have hd : (map_find s.read_depth_ t).getD 0 ≤ s.read_cnt_ := by
    cases hf : map_find s.read_depth_ t with
    | none => simp
    | some d =>
      rw [h3]
      exact map_find_le_sum _ _ _ hf
  have hi : incr ((map_find s.read_depth_ t).getD 0) = (map_find s.read_depth_ t).getD 0 + 1 :=
    incr_of_lt _ (by omega)
  have hc : (read s t).read_cnt_ = s.read_cnt_ + 1 := incr_of_lt _ hb
  refine ⟨⟨map_sorted_put _ _ _ h1, ?_, ?_⟩, hc⟩
  · intro e he
    rcases mem_map_put _ _ _ _ he with he | he
    · exact h2 e he
    · rw [he, hi]
      exact Nat.succ_pos _
  · rw [hc]
    have := depth_sum_put s.read_depth_ t (incr ((map_find s.read_depth_ t).getD 0)) h1
    simp only [read]
    rw [hi] at this ⊢
    omega

theorem reader_inv_unlock_shared (s s' : shared_mutex) (t : trd_id) (h : reader_inv s)
    (hb : s.read_cnt_ < 2 ^ 64) (hu : unlock_shared s t = Outcome.ok s') :
    reader_inv s' ∧ s'.read_cnt_ ≤ s.read_cnt_ := by
  obtain ⟨h1, h2, h3⟩ := h
  by_cases h0 : s.read_cnt_ > 0
  swap
  · simp [unlock_shared, h0] at hu
  cases hf : map_find s.read_depth_ t with
  | none => simp [unlock_shared, h0, hf] at hu
  | some d =>
    by_cases hd : d > 0
    swap
    · simp [unlock_shared, h0, hf, hd] at hu
    have hle : d ≤ s.read_cnt_ := by
      rw [h3]
      exact map_find_le_sum _ _ _ hf
    have hdc : decr s.read_cnt_ = s.read_cnt_ - 1 := decr_of_pos _ h0 hb
    have hdd : decr d = d - 1 := decr_of_pos _ hd (by omega)
    have hrd : s'.read_cnt_ = s.read_cnt_ - 1 ∧
        s'.read_depth_ = (if d - 1 = 0 then map_erase s.read_depth_ t
          else map_put s.read_depth_ t (d - 1)) := by
      by_cases hw : s.write_depth_ > 0 <;> by_cases hr : d - 1 = 0 <;>
        · simp [unlock_shared, h0, hf, hd, hdc, hdd, hw, hr] at hu
          subst hu
          simp [hr]
    obtain ⟨hc', hm'⟩ := hrd
    refine ⟨⟨?_, ?_, ?_⟩, by omega⟩
    · rw [hm']
      split_ifs
      · exact map_sorted_erase _ _ h1
      · exact map_sorted_put _ _ _ h1
    · rw [hm']
      intro e he
      split_ifs at he with hr
      · exact h2 e (mem_map_erase _ _ _ he)
      · rcases mem_map_put _ _ _ _ he with he | he
        · exact h2 e he
        · rw [he]
          exact Nat.pos_of_ne_zero hr
    · rw [hc', hm']
      split_ifs with hr
      · have := depth_sum_erase s.read_depth_ t h1
        rw [hf] at this
        simp only [Option.getD_some] at this
        omega
      · have := depth_sum_put s.read_depth_ t (d - 1) h1
        rw [hf] at this
        simp only [Option.getD_some] at this
        omega

theorem unlock_keeps_readers (s s' : shared_mutex) (t : trd_id)
    (hu : unlock s t = Outcome.ok s') :
    s'.read_cnt_ = s.read_cnt_ ∧ s'.read_depth_ = s.read_depth_ := by
  by_cases h0 : s.write_cnt_ > 0
  swap
  · simp [unlock, h0] at hu
  by_cases hw : s.w_id_ = some t <;> by_cases hd : decr s.write_depth_ = 0 <;>
    by_cases hf : map_find s.read_depth_ t = none <;>
    · simp [unlock, h0, hw, hd, hf] at hu
      subst hu
      exact ⟨rfl, rfl⟩

theorem apply_step_reader_inv (s s' : shared_mutex) (st : Step) (h : reader_inv s)
    (hb : s.read_cnt_ + 1 < 2 ^ 64) (hs : apply_step s st = some s') :
    reader_inv s' ∧ s'.read_cnt_ ≤ s.read_cnt_ + 1 := by
  cases st with
  | lock_shared t =>
    simp only [apply_step, lock_shared] at hs
    by_cases hr : readable s t = true
    · simp only [hr, if_true, Option.some.injEq] at hs
      subst hs
      obtain ⟨h1, h2⟩ := reader_inv_read s t h hb
      exact ⟨h1, by omega⟩
    · simp [hr] at hs
  | try_lock_shared t =>
    simp only [apply_step, try_lock_shared, Option.some.injEq] at hs
    by_cases hr : readable s t = true
    · simp only [hr, if_true] at hs
      subst hs
      obtain ⟨h1, h2⟩ := reader_inv_read s t h hb
      exact ⟨h1, by omega⟩
    · simp only [hr, Bool.false_eq_true, if_false] at hs
      subst hs
      exact ⟨h, by omega⟩
  | unlock_shared t =>
    simp only [apply_step] at hs
    cases hu : unlock_shared s t with
    | ok m =>
      simp only [hu, Option.some.injEq] at hs
      subst hs
      obtain ⟨h1, h2⟩ := reader_inv_unlock_shared s m t h (by omega) hu
      exact ⟨h1, by omega⟩
    | fatal m => simp [hu] at hs
    | undefined m => simp [hu] at hs
  | lock_enter t =>
    simp only [apply_step, Option.some.injEq] at hs
    subst hs
    exact ⟨⟨h.1, h.2.1, h.2.2⟩, by simp only [lock_enter]; omega⟩
  | lock_grant t =>
    simp only [apply_step, lock_grant] at hs
    by_cases hr : writeable s t = true
    · simp only [hr, if_true, Option.some.injEq] at hs
      subst hs
      exact ⟨⟨h.1, h.2.1, h.2.2⟩, by simp only [write]; omega⟩
    · simp [hr] at hs
  | try_lock t =>
    simp only [apply_step, try_lock, Option.some.injEq] at hs
    by_cases hr : writeable s t = true
    · simp only [hr, if_true] at hs
      subst hs
      exact ⟨⟨h.1, h.2.1, h.2.2⟩, by simp only [write]; omega⟩
    · simp only [hr, Bool.false_eq_true, if_false] at hs
      subst hs
      exact ⟨h, by omega⟩
  | unlock t =>
    simp only [apply_step] at hs
    cases hu : unlock s t with
    | ok m =>
      simp only [hu, Option.some.injEq] at hs
      subst hs
      obtain ⟨h1, h2⟩ := unlock_keeps_readers s m t hu
      refine ⟨⟨?_, ?_, ?_⟩, by omega⟩
      · rw [h2]; exact h.1
      · rw [h2]; exact h.2.1
      · rw [h1, h2]; exact h.2.2
    | fatal m => simp [hu] at hs
    | undefined m => simp [hu] at hs

theorem apply_steps_reader_inv (steps : List Step) :
    ∀ s s' : shared_mutex, reader_inv s → s.read_cnt_ + steps.length < 2 ^ 64 →
      apply_steps s steps = some s' → reader_inv s' ∧ s'.read_cnt_ < 2 ^ 64 := by
  induction steps with
  | nil =>
    intro s s' h hb hr
    simp only [apply_steps, Option.some.injEq] at hr
    subst hr
    exact ⟨h, by simpa using hb⟩
  | cons st rest ih =>
    intro s s' h hb hr
    simp only [List.length_cons] at hb
    simp only [apply_steps] at hr
    cases hs : apply_step s st with
    | none => simp [hs] at hr
    | some s1 =>
      simp only [hs, Option.some_bind] at hr
      obtain ⟨h1, h2⟩ := apply_step_reader_inv s s1 st h (by omega) hs
      exact ih s1 s' h1 (by omega) hr

/-- C20: in every state reached from the fresh lock by fewer than `2 ^ 64`
steps `lock_shared`, `try_lock_shared`, `lock` (entry and grant), `try_lock`,
`unlock`, `unlock_shared` that all return normally, whoever takes them, every
entry of `read_depth_` has a positive depth and `read_cnt_` is the sum of all
depths in `read_depth_`.  In such a state `unlock_shared()` by a thread that
has an entry does return normally. -/
theorem C20_reader_bookkeeping (steps : List Step) (s : shared_mutex)
    (hlen : steps.length < 2 ^ 64) (hrun : apply_steps shared_mutex.fresh steps = some s) :
    (∀ e ∈ s.read_depth_, 0 < e.2) ∧
    (∀ t d, map_find s.read_depth_ t = some d → 0 < d) ∧
    s.read_cnt_ = depth_sum s.read_depth_ ∧
    (∀ t, (map_find s.read_depth_ t).isSome = true → ∃ s', unlock_shared s t = Outcome.ok s') := by
  have h0 : reader_inv shared_mutex.fresh := by
    refine ⟨List.Pairwise.nil, ?_, rfl⟩
    intro e he
    simp [shared_mutex.fresh] at he
  obtain ⟨⟨h1, h2, h3⟩, hb⟩ := apply_steps_reader_inv steps shared_mutex.fresh s h0
    (by simpa [shared_mutex.fresh] using hlen) hrun
  have hpos : ∀ t d, map_find s.read_depth_ t = some d → 0 < d := by
    intro t d hf
    have hmem : ∀ m : map_depth, map_find m t = some d → (t, d) ∈ m := by
      intro m
      induction m with
      | nil => intro hm; simp [map_find] at hm
      | cons a m ih =>
        obtain ⟨k, w⟩ := a
        intro hm
        by_cases hk : k = t
        · simp only [map_find, hk, if_true, Option.some.injEq] at hm
          rw [hk, hm]
          exact List.mem_cons_self _ _
        · simp only [map_find, hk, if_false] at hm
          exact List.mem_cons_of_mem _ (ih hm)
    exact h2 (t, d) (hmem _ hf)
  refine ⟨h2, hpos, h3, ?_⟩
  intro t ht
  obtain ⟨d, hd⟩ := Option.isSome_iff_exists.mp ht
  have hdpos := hpos t d hd
  have hle : d ≤ s.read_cnt_ := by
    rw [h3]
    exact map_find_le_sum _ _ _ hd
  have hc : ¬ ¬ (s.read_cnt_ > 0) := by omega
  have hdp : ¬ ¬ (d > 0) := by omega
  unfold unlock_shared
  simp only [hc, if_false, hd, hdp]
  split_ifs <;> exact ⟨_, rfl⟩

/-- Witness for C20: two readers, one of them twice, then one release. -/
theorem C20_reader_bookkeeping_witness :
    (∀ e ∈ ([(1, 2)] : map_depth), 0 < e.2) ∧
    (∀ t d, map_find [(1, 2)] t = some d → 0 < d) ∧
    2 = depth_sum [(1, 2)] ∧
    (∀ t, (map_find [(1, 2)] t).isSome = true →
      ∃ s', unlock_shared
          { read_cnt_ := 2, write_cnt_ := 0, write_depth_ := 0, w_id_ := none,
            read_depth_ := [(1, 2)] } t = Outcome.ok s') :=
  C20_reader_bookkeeping
    [.lock_shared 1, .try_lock_shared 2, .lock_shared 1, .unlock_shared 2]
    { read_cnt_ := 2, write_cnt_ := 0, write_depth_ := 0, w_id_ := none, read_depth_ := [(1, 2)] }
    (by simp) (by decide)

/-! ## Waiting writers -/

/-- C21 (fails on the code): thread 1 holds the exclusive lock, threads 2 and 3
enter `lock()` and have to wait (neither is granted on entry), then thread 1
releases with `unlock()`.  Nobody holds the lock any more (`read_cnt_ == 0`,
`write_depth_ == 0`, `w_id_` unset), two requests are counted in `write_cnt_`,
and `writeable()` is false for both waiting threads, indeed for every thread:
its first test wants `write_cnt_ == 1`.  The writer woken by `notify_one()`
goes back to waiting. -/
theorem C21_waiting_writers_stranded :
    lock { read_cnt_ := 0, write_cnt_ := 1, write_depth_ := 1, w_id_ := some 1,
           read_depth_ := [] } 2 = none ∧
      lock { read_cnt_ := 0, write_cnt_ := 2, write_depth_ := 1, w_id_ := some 1,
             read_depth_ := [] } 3 = none ∧
      run System.fresh [.lock_enter 1, .lock_grant 1, .lock_enter 2, .lock_enter 3, .unlock 1]
        = some { mtx := { read_cnt_ := 0, write_cnt_ := 2, write_depth_ := 0, w_id_ := none,
                          read_depth_ := [] },
                 excl := [], shrd := [], waiting := [3, 2] } ∧
      ∀ t : trd_id,
        writeable { read_cnt_ := 0, write_cnt_ := 2, write_depth_ := 0, w_id_ := none,
                    read_depth_ := [] } t = false := by
  refine ⟨by decide, by decide, by decide, ?_⟩
  intro t
  simp [writeable, map_size]

/-! ## Synchronized map -/

theorem unordered_map_insert_present {K V : Type} [DecidableEq K] (m : unordered_map K V)
    (key : K) (value old : V) (h : m.lookup key = some old) : m.insert key value = m := by
  simp [unordered_map.insert, h]

/-- C25 (fails on the code): `replace` never changes the map.  When the key is
present both overloads call `map_.insert`, which leaves an existing entry as it
is, so `replace(k, v)` returns the previous value and `replace(k, expected, v)`
returns `true` while the map still maps `k` to its old value: with `1 ↦ 10`
stored, `replace(1, 20)` and `replace(1, 10, 20)` both report success and a
lookup of 1 afterwards still gives 10. -/
theorem C25_replace_keeps_old_value :
    (∀ (m : unordered_map Nat Nat) (k v : Nat), (m.replace k v).2 = m) ∧
    (∀ (m : unordered_map Nat Nat) (k e v : Nat), (m.replace_expected k e v).2 = m) ∧
    (unordered_map.replace { map_ := [(1, 10)] } 1 20).1 = some 10 ∧
    (unordered_map.replace { map_ := [(1, 10)] } 1 20).2.lookup 1 = some 10 ∧
    (unordered_map.replace_expected { map_ := [(1, 10)] } 1 10 20).1 = true ∧
    (unordered_map.replace_expected { map_ := [(1, 10)] } 1 10 20).2.lookup 1 = some 10 := by
  refine ⟨?_, ?_, by decide, by decide, by decide, by decide⟩
  · intro m k v
    unfold unordered_map.replace
    cases h : m.lookup k with
    | none => rfl
    | some old => exact unordered_map_insert_present m k v old h
  · intro m k e v
    unfold unordered_map.replace_expected
    cases h : m.lookup k with
    | none => rfl
    | some cur =>
      by_cases hc : cur = e
      · simp only [hc, if_true]
        exact unordered_map_insert_present m k v cur h
      · simp only [hc, if_false]

/-! ## Element counter -/

theorem take_front_counter {α : Type} (C : Container α)
    (hpop : ∀ q q', C.pop q = some q' → q'.length + 1 = q.length)
    (junk : Nat) (s s' : safe_queue_base α)
    (h : s.size_ = (junk + s.queue_.length) % 2 ^ 64)
    (ha : (s.take_front C).state = some s') :
    s'.size_ = (junk + s'.queue_.length) % 2 ^ 64 := by
  unfold safe_queue_base.take_front at ha
  cases hf : C.front s.queue_ with
  | none => simp [hf, Popped.state] at ha
  | some x =>
    cases hp : C.pop s.queue_ with
    | none => simp [hf, hp, Popped.state] at ha
    | some q =>
      simp only [hf, hp, Popped.state, Option.some.injEq] at ha
      subst ha
      have hl := hpop _ _ hp
      simp only [decr, SIZE_MOD, h]
      omega

theorem queue_apply_counter {α : Type} (C : Container α)
    (hpush : ∀ q x, (C.push q x).length = q.length + 1)
    (hpop : ∀ q q', C.pop q = some q' → q'.length + 1 = q.length)
    (junk : Nat) (s s' : safe_queue_base α) (op : QueueOp α)
    (h : s.size_ = (junk + s.queue_.length) % 2 ^ 64)
    (ha : s.apply C op = some s') :
    s'.size_ = (junk + s'.queue_.length) % 2 ^ 64 := by
  cases op with
  | push x =>
    simp only [safe_queue_base.apply, safe_queue_base.push, Option.some.injEq] at ha
    subst ha
    simp only [incr, SIZE_MOD, h, hpush]
    omega
  | try_pop =>
    simp only [safe_queue_base.apply, safe_queue_base.try_pop] at ha
    split_ifs at ha
    · simp only [Popped.state, Option.some.injEq] at ha
      subst ha
      exact h
    · exact take_front_counter C hpop junk s s' h ha
  | try_pop_ptr =>
    simp only [safe_queue_base.apply, safe_queue_base.try_pop_ptr] at ha
    split_ifs at ha
    · simp only [Popped.state, Option.some.injEq] at ha
      subst ha
      exact h
    · exact take_front_counter C hpop junk s s' h ha
  | wait_and_pop =>
    simp only [safe_queue_base.apply, safe_queue_base.wait_and_pop] at ha
    split_ifs at ha
    · simp [Popped.state] at ha
    · exact take_front_counter C hpop junk s s' h ha
  | wait_and_pop_ptr =>
    simp only [safe_queue_base.apply, safe_queue_base.wait_and_pop_ptr] at ha
    split_ifs at ha
    · simp [Popped.state] at ha
    · exact take_front_counter C hpop junk s s' h ha
  | wait_and_pop_timed =>
    simp only [safe_queue_base.apply, safe_queue_base.wait_and_pop_timed] at ha
    split_ifs at ha
    · simp only [Popped.state, Option.some.injEq] at ha
      subst ha
      exact h
    · exact take_front_counter C hpop junk s s' h ha

theorem queue_run_counter {α : Type} (C : Container α)
    (hpush : ∀ q x, (C.push q x).length = q.length + 1)
    (hpop : ∀ q q', C.pop q = some q' → q'.length + 1 = q.length)
    (junk : Nat) (ops : List (QueueOp α)) :
    ∀ s s' : safe_queue_base α, s.size_ = (junk + s.queue_.length) % 2 ^ 64 →
      safe_queue_base.run C s ops = some s' →
      s'.size_ = (junk + s'.queue_.length) % 2 ^ 64 := by
  induction ops with
  | nil =>
    intro s s' h hr
    simp only [safe_queue_base.run, Option.some.injEq] at hr
    subst hr
    exact h
  | cons op ops ih =>
    intro s s' h hr
    simp only [safe_queue_base.run] at hr
    cases ha : s.apply C op with
    | none => simp [ha] at hr
    | some s1 =>
      simp only [ha, Option.some_bind] at hr
      exact ih s1 s' (queue_apply_counter C hpush hpop junk s s1 op h ha) hr

theorem std_queue_push_length {α : Type} (q : List α) (x : α) :
    ((std_queue α).push q x).length = q.length + 1 := by
  simp [std_queue]

theorem std_queue_pop_length {α : Type} (q q' : List α) (h : (std_queue α).pop q = some q') :
    q'.length + 1 = q.length := by
  cases q with
  | nil => simp [std_queue] at h
  | cons x rest =>
    simp only [std_queue, Option.some.injEq] at h
    subst h
    rfl

theorem priority_push_length {α : Type} [LinearOrder α] (q : List α) (x : α) :
    ((priority_queue α).push q x).length = q.length + 1 := by
  simp [priority_queue]

theorem priority_pop_length {α : Type} [LinearOrder α] (q q' : List α)
    (h : (priority_queue α).pop q = some q') : q'.length + 1 = q.length := by
  have hne : q ≠ [] := by
    intro hq
    subst hq
    simp [priority_queue, pq_top] at h
  obtain ⟨m, hm, hmem, _⟩ := pq_top_spec q hne
  simp only [priority_queue, hm, Option.map_some', Option.some.injEq] at h
  subst h
  rw [List.length_erase_of_mem hmem]
  have := List.length_pos_of_mem hmem
  omega

/-- C22 (fails on the code): the constructor does not set the counter.
`std::atomic<size_t> size_` has no initializer and `safe_queue_base() = default`
leaves it as found, so a default-initialized queue whose storage holds 7
reports `size() == 7` with an empty container, and 8 after one push.  What the
listed operations do maintain, over `std::queue` and over the priority queue, is
`size() == (initial value + number of elements) mod 2 ^ 64`. -/
theorem C22_counter_not_initialized :
    (safe_queue_base.ctor Nat 7).size = 7 ∧
    (safe_queue_base.ctor Nat 7).queue_.length = 0 ∧
    (∃ s : safe_queue_base Nat,
      safe_queue_base.run (std_queue Nat) (safe_queue_base.ctor Nat 7) [QueueOp.push 1] = some s ∧
      s.size = 8 ∧ s.queue_.length = 1) ∧
    (∀ (junk : Nat) (ops : List (QueueOp Nat)) (s : safe_queue_base Nat), junk < 2 ^ 64 →
      safe_queue_base.run (std_queue Nat) (safe_queue_base.ctor Nat junk) ops = some s →
      s.size = (junk + s.queue_.length) % 2 ^ 64) ∧
    (∀ (junk : Nat) (ops : List (QueueOp Nat)) (s : safe_queue_base Nat), junk < 2 ^ 64 →
      safe_queue_base.run (priority_queue Nat) (safe_queue_base.ctor Nat junk) ops = some s →
      s.size = (junk + s.queue_.length) % 2 ^ 64) ∧
    (∃ s : safe_queue_base Nat,
      safe_queue_base.run (priority_queue Nat) (safe_queue_base.ctor Nat 7) [QueueOp.push 1]
        = some s ∧
      s.size = 8 ∧ s.queue_.length = 1) := by
  refine ⟨rfl, rfl, ⟨_, rfl, by decide, rfl⟩, ?_, ?_, ⟨_, rfl, by decide, rfl⟩⟩
  · intro junk ops s hj hr
    exact queue_run_counter (std_queue Nat) std_queue_push_length std_queue_pop_length junk ops _ s
      (by simp only [safe_queue_base.ctor, List.length_nil]; omega) hr
  · intro junk ops s hj hr
    exact queue_run_counter (priority_queue Nat) priority_push_length priority_pop_length
      junk ops _ s (by simp only [safe_queue_base.ctor, List.length_nil]; omega) hr

/-- C23: `safe_queue_base::empty()` returns `true` exactly when the element
counter is nonzero, that is `empty() == (size() != 0)`; on a queue whose counter
is 0 it returns `false`.  On a queue over `std::queue` whose counter started at
0 and that was used through the counter-keeping operations it therefore returns
`true` exactly when the container is not empty. -/
theorem C23_empty_is_inverted {α : Type} (s : safe_queue_base α) :
    (s.empty = true ↔ s.size_ ≠ 0) ∧
    s.empty = decide (s.size ≠ 0) ∧
    (s.size_ = 0 → s.empty = false) ∧
    (∀ ops : List (QueueOp α),
      safe_queue_base.run (std_queue α) (safe_queue_base.ctor α 0) ops = some s →
      s.queue_.length < 2 ^ 64 → (s.empty = true ↔ s.queue_ ≠ [])) := by
  refine ⟨by simp [safe_queue_base.empty], rfl, ?_, ?_⟩
  · intro h
    simp [safe_queue_base.empty, h]
  · intro ops hr hl
    have h := queue_run_counter (std_queue α) std_queue_push_length std_queue_pop_length 0 ops _ s
      (by simp [safe_queue_base.ctor]) hr
    simp only [Nat.zero_add] at h
    rw [Nat.mod_eq_of_lt hl] at h
    simp only [safe_queue_base.empty, decide_eq_true_eq, h]
    exact ⟨fun hne hq => hne (by rw [hq]; rfl), fun hne hz => hne (List.length_eq_zero.mp hz)⟩

/-! ## Spin mutex backoff -/

theorem try_loop_exhausted (obs : Nat → Bool) (hset : ∀ k, obs k = true) (cnt probes : Nat) :
    (spin_lock.try_loop obs cnt probes true).1 = 0 := by
  cases cnt with
  | zero => rfl
  | succ c =>
    rw [try_loop_all_set obs (c + 1) probes true (Nat.succ_pos c) (fun j _ => hset _)]

theorem next_millis_step (j : Nat) :
    spin_mutex.next_millis (5 * 4 ^ min j 3) = 5 * 4 ^ min (j + 1) 3 := by
  rcases Nat.lt_or_ge j 3 with h | h
  · interval_cases j <;> decide
  · have h1 : min j 3 = 3 := Nat.min_eq_right h
    have h2 : min (j + 1) 3 = 3 := Nat.min_eq_right (by omega)
    rw [h1, h2]
    decide

theorem lock_loop_exhausted (try_cnt_ : Nat) (obs : Nat → Bool) (hset : ∀ k, obs k = true) :
    ∀ (rounds j probes : Nat) (waits : List Nat),
      spin_mutex.lock_loop try_cnt_ obs rounds (5 * 4 ^ min j 3) probes waits
        = (false, waits ++ (List.range rounds).map fun k => 5 * 4 ^ min (j + k) 3) := by
  intro rounds
  induction rounds with
  | zero => intro j probes waits; simp [spin_mutex.lock_loop]
  | succ r ih =>
    intro j probes waits
    have h0 := try_loop_exhausted obs hset try_cnt_ probes
    rw [spin_mutex.lock_loop]
    simp only [h0, gt_iff_lt, lt_self_iff_false, if_false, next_millis_step, ih]
    rw [List.range_succ_eq_map]
    simp only [List.map_cons, List.map_map, List.append_assoc, List.singleton_append,
      Nat.add_zero]
    congr 3
    apply List.map_congr_left
    intro k _
    simp only [Function.comp_apply, Nat.succ_eq_add_one]
    rw [show j + 1 + k = j + (k + 1) by omega]

/-- C24 (counterexample): with the flag found set by every probe, the first
three timed waits of `spin_mutex::lock()` last 5, 20 and 80 ms.  The second wait
is four times the first, not double, so it is not `min(5 * 2 ^ 1, cap)` for any
cap. -/
theorem C24_backoff_is_not_doubling :
    spin_mutex.lock 200 (fun _ => true) 3 = (false, [5, 20, 80]) ∧
    spin_mutex.next_millis 5 = 20 ∧
    ∀ cap : Nat, 20 ≠ min (5 * 2 ^ 1) cap := by
  refine ⟨?_, by decide, ?_⟩
  · have h := lock_loop_exhausted 200 (fun _ => true) (fun _ => rfl) 3 0 0 []
    simpa [spin_mutex.lock] using h
  · intro cap h
    have : min (5 * 2 ^ 1) cap ≤ 10 := Nat.min_le_left _ _
    omega

/-- C24 (amended): when every spin phase is exhausted, the successive timed
waits of `spin_mutex::lock()` start at 5 ms and each is four times the previous
one while the previous one is below 100 ms, after which the duration stays the
same: the waits are 5, 20, 80, 320, 320, ... ms, the `k`-th one lasting
`5 * 4 ^ min k 3` ms, never more than 320 ms. -/
theorem C24_backoff_schedule (try_cnt_ : Nat) (obs : Nat → Bool)
    (hset : ∀ k, obs k = true) (rounds : Nat) :
    spin_mutex.lock try_cnt_ obs rounds
        = (false, (List.range rounds).map fun k => 5 * 4 ^ min k 3) ∧
      (∀ k, 5 * 4 ^ min k 3 ≤ 320) ∧
      (∀ k, 5 * 4 ^ min k 3 < 100 → 5 * 4 ^ min (k + 1) 3 = 4 * (5 * 4 ^ min k 3)) ∧
      (∀ k, 3 ≤ k → 5 * 4 ^ min k 3 = 320) := by
  refine ⟨?_, ?_, ?_, ?_⟩
  · have h := lock_loop_exhausted try_cnt_ obs hset rounds 0 0 []
    simpa [spin_mutex.lock] using h
  · intro k
    rcases Nat.lt_or_ge k 3 with h | h
    · interval_cases k <;> decide
    · rw [Nat.min_eq_right h]
      decide
  · intro k hk
    rcases Nat.lt_or_ge k 3 with h | h
    · interval_cases k <;> decide
    · rw [Nat.min_eq_right h] at hk
      exact absurd hk (by decide)
  · intro k h
    rw [Nat.min_eq_right h]
    decide

/-- Witness for C24 (amended): five rounds with the default `try_cnt_` of 200. -/
theorem C24_backoff_schedule_witness :
    spin_mutex.lock 200 (fun _ => true) 5
        = (false, (List.range 5).map fun k => 5 * 4 ^ min k 3) ∧
      (∀ k, 5 * 4 ^ min k 3 ≤ 320) ∧
      (∀ k, 5 * 4 ^ min k 3 < 100 → 5 * 4 ^ min (k + 1) 3 = 4 * (5 * 4 ^ min k 3)) ∧
      (∀ k, 3 ≤ k → 5 * 4 ^ min k 3 = 320) :=
  C24_backoff_schedule 200 (fun _ => true) (fun _ => rfl) 5

end app
